import Mathlib

/-!
Verification of the indexed Merkle tree engine (`src/imt.rs`).

The state and operations are shallowly embedded: the generic key type `K`
(totally ordered, with minimal sentinel `K::default()`) is instantiated as
`Nat` with sentinel `0`, the value type `V` as `Nat`, and digests
(`Hash = [u8; 32]`) as `List Nat`.  `u64` arithmetic is modelled on `Nat`
with explicit `% 2 ^ 64` where the source can wrap (release semantics).
The `HashMap<K, IMTNode>` node registry is modelled as a list of nodes
looked up by their `key` field (keys are unique in every reachable state),
and the sparse cache `HashMap<u8, HashMap<u64, Hash>>` as a function
`Nat → Nat → Option Hash`.

Two hash functions parameterise the development, mirroring the source:
`hasher`, the injected `Hashor` stored in the struct and used via
`node.hash(self.hasher.clone())`, and `keccak`, the `tiny_keccak`
Keccak-256 invoked directly by `refresh_tree` (incremental `update` calls
followed by `finalize` hash the concatenation of the fed byte strings).
Panics (`assert!`, `expect`) are modelled as `Option.none`.
-/

namespace IMT

abbrev Hash := List Nat

/-- One occupied slot of the tree (`IMTNode` of `circuits/node.rs`, fields
per the spec's data model: `index`, `key`, `value`, `next_key`). -/
structure IMTNode where
  index : Nat
  key : Nat
  value : Nat
  next_key : Nat
deriving DecidableEq, Repr

/-- Modelled from the spec: the mutation proof bundle (`IMTMutate` of
`circuits/mutate.rs`, absent from `src/`), with the two variants and the
field lists the spec gives for insert and update bundles. -/
inductive IMTMutate where
  | insert (old_root : Hash) (old_size : Nat) (ln_node : IMTNode)
      (ln_siblings : List (Option Hash)) (node : IMTNode)
      (node_siblings : List (Option Hash))
      (updated_ln_siblings : List (Option Hash))
  | update (old_root : Hash) (size : Nat) (node : IMTNode)
      (node_siblings : List (Option Hash)) (new_value : Nat)
deriving DecidableEq, Repr

/-- The pre-mutation size recorded in the bundle. -/
def IMTMutate.oldSize : IMTMutate → Nat
  | .insert _ s _ _ _ _ _ => s
  | .update _ s _ _ _ => s

/-- The newly created node recorded in an insert bundle. -/
def IMTMutate.newNode : IMTMutate → Option IMTNode
  | .insert _ _ _ _ node _ _ => some node
  | .update _ _ _ _ _ => none

/-- The pre-mutation low-nullifier snapshot recorded in an insert bundle. -/
def IMTMutate.lnNode : IMTMutate → Option IMTNode
  | .insert _ _ ln _ _ _ _ => some ln
  | .update _ _ _ _ _ => none

/-- The tree state (`Imt` struct): root, depth, size, node registry and
sparse per-level hash cache. -/
structure Imt where
  root : Hash
  depth : Nat
  size : Nat
  nodes : List IMTNode
  hashes : Nat → Nat → Option Hash

/-- Rust `u64::to_be_bytes`: the size as 8 big-endian bytes. -/
def u64be (n : Nat) : List Nat :=
  [n / 2 ^ 56 % 256, n / 2 ^ 48 % 256, n / 2 ^ 40 % 256, n / 2 ^ 32 % 256,
   n / 2 ^ 24 % 256, n / 2 ^ 16 % 256, n / 2 ^ 8 % 256, n % 256]

/-- Source expression `index + (1 - 2 * (index % 2))` in wrapping `u64`
arithmetic: the sibling index used by `refresh_tree` and `siblings`. -/
def sibStep (index : Nat) : Nat :=
  (index + (1 + 2 ^ 64 - 2 * (index % 2)) % 2 ^ 64) % 2 ^ 64

/-- Store a digest at `(level, pos)` of the sparse cache
(`self.hashes.entry(level).or_default().insert(pos, h)`). -/
def cacheInsert (c : Nat → Nat → Option Hash) (level pos : Nat) (h : Hash) :
    Nat → Nat → Option Hash :=
  fun l p => if l = level ∧ p = pos then some h else c l p

/-- Source expression `(1 << depth) - 1` on `u64` (release semantics: the
shift amount is masked to the bit width). -/
def maxSize (depth : Nat) : Nat := 2 ^ (depth % 64) - 1

section Engine

variable (hasher keccak : List Nat → List Nat) (nodeBytes : IMTNode → List Nat)

/-- One iteration body of the `refresh_tree` climb: build the
`(left, right)` pair from the present child's digest and the optional
cached sibling, then hash per the source's `match`. -/
def combineStep (index : Nat) (hash : Hash) (sibling_hash : Option Hash) : Hash :=
  let lr : Option Hash × Option Hash :=
    if index % 2 = 0 then (some hash, sibling_hash) else (sibling_hash, some hash)
  match lr with
  | (none, none) => hash -- source: `unreachable!()`; one component of `lr` is always `some hash`
  | (none, some right) => keccak right
  | (some left, none) => keccak left
  | (some left, some right) => keccak (left ++ right)

/-- The `for level in (1..=self.depth).rev()` loop of `refresh_tree`,
recursing on the level: look up the sibling at the current level, combine,
divide the index by two and cache the parent one level down.  Returns the
updated cache, final index and digest, and the collected sibling path. -/
def climbLoop : Nat → (Nat → Nat → Option Hash) → Nat → Hash →
    ((Nat → Nat → Option Hash) × Nat × Hash × List (Option Hash))
  | 0, hashes, index, hash => (hashes, index, hash, [])
  | l + 1, hashes, index, hash =>
    let sibling_hash := hashes (l + 1) (sibStep index)
    let hash2 := combineStep keccak index hash sibling_hash
    let index2 := index / 2
    let r := climbLoop l (cacheInsert hashes l index2 hash2) index2 hash2
    (r.1, r.2.1, r.2.2.1, sibling_hash :: r.2.2.2)

/-- Embedding of `Imt::refresh_tree`: recompute and cache the node's leaf digest with
the injected hasher (`node.hash(self.hasher.clone())`; the node's byte
serialization `nodeBytes` is modelled from the spec, which leaves its
layout to the external circuit), climb to the top, and rebind the root as
the Keccak-256 of the top digest followed by the size's big-endian bytes.
`None` models the `expect` panic on a missing node. -/
def refreshTree (imt : Imt) (node_key : Nat) :
    Option (Imt × List (Option Hash)) :=
  match imt.nodes.find? (fun n => n.key == node_key) with
  | none => none
  | some node =>
    let hash := hasher (nodeBytes node)
    let hashes := cacheInsert imt.hashes imt.depth node.index hash
    let r := climbLoop keccak imt.depth hashes node.index hash
    let root := keccak (r.2.2.1 ++ u64be imt.size)
    some ({ imt with root := root, hashes := r.1 }, r.2.2.2)

/-- The read-only loop of `Imt::siblings`. -/
def siblingsLoop (hashes : Nat → Nat → Option Hash) : Nat → Nat → List (Option Hash)
  | 0, _ => []
  | l + 1, index => hashes (l + 1) (sibStep index) :: siblingsLoop hashes l (index / 2)

/-- Embedding of `Imt::siblings`: the node's current sibling path, without mutation. -/
def siblings (imt : Imt) (node_key : Nat) : Option (List (Option Hash)) :=
  (imt.nodes.find? (fun n => n.key == node_key)).map
    (fun node => siblingsLoop imt.hashes imt.depth node.index)

/-- Modelled from the spec: `IMTNode::is_ln_of` (in `circuits/node.rs`,
absent from `src/`): `p.key < k` and (`p.next_key > k` or
`p.next_key == sentinel`), the sentinel being `K::default() = 0`. -/
def IMTNode.is_ln_of (node : IMTNode) (k : Nat) : Bool :=
  decide (node.key < k) && (decide (k < node.next_key) || node.next_key == 0)

/-- Embedding of `Imt::low_nullifier`: scan the registry for the low nullifier;
`None` models the `expect` panic when no candidate exists. -/
def low_nullifier (imt : Imt) (node_key : Nat) : Option IMTNode :=
  imt.nodes.find? (fun n => n.is_ln_of node_key)

/-- Registry write `nodes.get_mut(&k).next_key = next` on the list model. -/
def setNextKey (nodes : List IMTNode) (k next : Nat) : List IMTNode :=
  nodes.map (fun n => if n.key = k then { n with next_key := next } else n)

/-- Registry write `nodes.get_mut(&k).value = v` on the list model. -/
def setValue (nodes : List IMTNode) (k v : Nat) : List IMTNode :=
  nodes.map (fun n => if n.key = k then { n with value := v } else n)

/-- Embedding of `Imt::new`: start from a defaulted struct, insert the sentinel node
(all fields default) and refresh the tree from it.  The fallback branch is
unreachable: the sentinel is in the registry, so `refreshTree` succeeds. -/
def newTree (depth : Nat) : Imt :=
  let init_node : IMTNode := { index := 0, key := 0, value := 0, next_key := 0 }
  let imt : Imt := { root := List.replicate 32 0, depth := depth, size := 0,
                     nodes := [init_node], hashes := fun _ _ => none }
  match refreshTree hasher keccak nodeBytes imt 0 with
  | some (imt2, _) => imt2
  | none => imt

/-- Embedding of `Imt::insert_node`.  `None` models the panics: the overflow and
key-conflict `assert!`s and the internal `expect`s. -/
def insertNode (imt : Imt) (key value : Nat) : Option (Imt × IMTMutate) :=
  if imt.size < maxSize imt.depth then
    if (imt.nodes.find? (fun n => n.key == key)).isSome then none
    else
      let old_root := imt.root
      let old_size := imt.size
      let imt1 : Imt := { imt with size := imt.size + 1 }
      let node_index := imt1.size
      match low_nullifier imt1 key with
      | none => none
      | some ln_node =>
        match siblings imt1 ln_node.key with
        | none => none
        | some ln_siblings =>
          let imt2 : Imt := { imt1 with nodes := setNextKey imt1.nodes ln_node.key key }
          match refreshTree hasher keccak nodeBytes imt2 ln_node.key with
          | none => none
          | some (imt3, _) =>
            let node : IMTNode :=
              { index := node_index, key := key, value := value, next_key := ln_node.next_key }
            let imt4 : Imt := { imt3 with nodes := imt3.nodes ++ [node] }
            match refreshTree hasher keccak nodeBytes imt4 key with
            | none => none
            | some (imt5, node_siblings) =>
              match siblings imt5 ln_node.key with
              | none => none
              | some updated_ln_siblings =>
                some (imt5, .insert old_root old_size ln_node ln_siblings node
                  node_siblings updated_ln_siblings)
  else none

/-- Embedding of `Imt::update_node`.  `None` models the `expect` panic on an absent
key. -/
def updateNode (imt : Imt) (key value : Nat) : Option (Imt × IMTMutate) :=
  match imt.nodes.find? (fun n => n.key == key) with
  | none => none
  | some node0 =>
    let old_root := imt.root
    let size := imt.size
    let node : IMTNode := { node0 with value := value }
    let imt1 : Imt := { imt with nodes := setValue imt.nodes key value }
    match refreshTree hasher keccak nodeBytes imt1 key with
    | none => none
    | some (imt2, node_siblings) =>
      some (imt2, .update old_root size node node_siblings value)

/-- Specification-side recomputation from scratch (spec §4.3/§8): the
digest of the subtree of height `d` whose leaves are positions
`pos * 2 ^ d` to `(pos + 1) * 2 ^ d - 1`, from the node registry alone —
a leaf is the injected hash of the node at that position, an interior
digest combines the children per the combination rule, an absent child is
skipped, and an empty subtree has no digest. -/
def subtreeHash (nodes : List IMTNode) : Nat → Nat → Option Hash
  | 0, pos => (nodes.find? (fun n => n.index == pos)).map (fun n => hasher (nodeBytes n))
  | d + 1, pos =>
    match subtreeHash nodes d (2 * pos), subtreeHash nodes d (2 * pos + 1) with
    | none, none => none
    | none, some right => some (keccak right)
    | some left, none => some (keccak left)
    | some left, some right => some (keccak (left ++ right))

/-- Specification-side root: hash of the full-tree digest and the
big-endian size (`None` for an empty registry, which never occurs). -/
def fullRoot (nodes : List IMTNode) (depth size : Nat) : Option Hash :=
  (subtreeHash hasher keccak nodeBytes nodes depth 0).map
    (fun h => keccak (h ++ u64be size))

end Engine

/-- Key `b` is the strict successor of `a` within `keys`, or the sentinel
`0` when nothing in `keys` exceeds `a`. -/
def succOf (keys : List Nat) (a b : Nat) : Prop :=
  (b = 0 ∧ ∀ c ∈ keys, ¬a < c) ∨ (b ∈ keys ∧ a < b ∧ ∀ c ∈ keys, a < c → b ≤ c)

/-- The state invariants of the engine: the sentinel key is live, keys are
unique, indices are exactly `0..=size` in registry order, every node's
`next_key` is the strict successor of its key among live keys (sentinel
`0` for the maximum) — the linked-list form of "the chain from the
sentinel is strictly increasing and ends with `next_key = 0`" — and the
size respects capacity. -/
structure Inv (imt : Imt) : Prop where
  zero_mem : 0 ∈ imt.nodes.map IMTNode.key
  nodup : (imt.nodes.map IMTNode.key).Nodup
  idx : imt.nodes.map IMTNode.index = List.range (imt.size + 1)
  chain : ∀ n ∈ imt.nodes, succOf (imt.nodes.map IMTNode.key) n.key n.next_key
  size_le : imt.size ≤ maxSize imt.depth


section BasicLemmas

/-- In a registry whose `f`-projections are distinct, `find?` on the
projection of a member returns exactly that member. -/
theorem find?_field_self {f : IMTNode → Nat} {nodes : List IMTNode}
    (hn : (nodes.map f).Nodup) {p : IMTNode} (hp : p ∈ nodes) :
    nodes.find? (fun n => f n == f p) = some p := by
  have hs : (nodes.find? (fun n => f n == f p)).isSome := by
    rw [List.find?_isSome]
    exact ⟨p, hp, by simp⟩
  obtain ⟨a, ha⟩ := Option.isSome_iff_exists.mp hs
  have hfa : f a = f p := by simpa using List.find?_some ha
  have hma : a ∈ nodes := List.mem_of_find?_eq_some ha
  have : a = p := List.inj_on_of_nodup_map hn hma hp hfa
  rw [ha, this]

/-- Members with equal distinct-projection are equal. -/
theorem eq_of_field_eq {f : IMTNode → Nat} {nodes : List IMTNode}
    (hn : (nodes.map f).Nodup) {p q : IMTNode} (hp : p ∈ nodes) (hq : q ∈ nodes)
    (h : f p = f q) : p = q :=
  List.inj_on_of_nodup_map hn hp hq h

/-- Searching a field through a field-preserving rewrite of the registry. -/
theorem find?_map_field {f : IMTNode → Nat} {g : IMTNode → IMTNode}
    (hg : ∀ n, f (g n) = f n) (nodes : List IMTNode) (x : Nat) :
    (nodes.map g).find? (fun n => f n == x) =
      (nodes.find? (fun n => f n == x)).map g := by
  rw [List.find?_map]
  have hfun : ((fun n => f n == x) ∘ g) = (fun n => f n == x) := by
    funext n
    simp [hg]
  rw [hfun]

theorem setNextKey_key (k nk : Nat) (n : IMTNode) :
    ((if n.key = k then { n with next_key := nk } else n) : IMTNode).key = n.key := by
  split <;> rfl

theorem setNextKey_index (k nk : Nat) (n : IMTNode) :
    ((if n.key = k then { n with next_key := nk } else n) : IMTNode).index = n.index := by
  split <;> rfl

/-- Keys are untouched by a `next_key` write. -/
theorem setNextKey_map_key (nodes : List IMTNode) (k nk : Nat) :
    (setNextKey nodes k nk).map IMTNode.key = nodes.map IMTNode.key := by
  unfold setNextKey
  rw [List.map_map]
  apply List.map_congr_left
  intro n _
  simp only [Function.comp]
  split <;> rfl

/-- Indices are untouched by a `next_key` write. -/
theorem setNextKey_map_index (nodes : List IMTNode) (k nk : Nat) :
    (setNextKey nodes k nk).map IMTNode.index = nodes.map IMTNode.index := by
  unfold setNextKey
  rw [List.map_map]
  apply List.map_congr_left
  intro n _
  simp only [Function.comp]
  split <;> rfl

/-- Keys are untouched by a value write. -/
theorem setValue_map_key (nodes : List IMTNode) (k v : Nat) :
    (setValue nodes k v).map IMTNode.key = nodes.map IMTNode.key := by
  unfold setValue
  rw [List.map_map]
  apply List.map_congr_left
  intro n _
  simp only [Function.comp]
  split <;> rfl

/-- Indices are untouched by a value write. -/
theorem setValue_map_index (nodes : List IMTNode) (k v : Nat) :
    (setValue nodes k v).map IMTNode.index = nodes.map IMTNode.index := by
  unfold setValue
  rw [List.map_map]
  apply List.map_congr_left
  intro n _
  simp only [Function.comp]
  split <;> rfl

/-- Big-endian 64-bit encodings of distinct representable sizes differ. -/
theorem u64be_inj {a b : Nat} (ha : a < 2 ^ 64) (hb : b < 2 ^ 64)
    (h : u64be a = u64be b) : a = b := by
  simp only [u64be, List.cons.injEq, and_true] at h
  obtain ⟨h1, h2, h3, h4, h5, h6, h7, h8⟩ := h
  have ha' : a < 18446744073709551616 := by exact_mod_cast ha
  have hb' : b < 18446744073709551616 := by exact_mod_cast hb
  omega

/-- The wrapping sibling expression is `index + 1` for an even index and
`index - 1` for an odd one, for any representable `u64` index. -/
theorem sibStep_eq {index : Nat} (h : index < 2 ^ 64) :
    sibStep index = if index % 2 = 0 then index + 1 else index - 1 := by
  unfold sibStep
  have h2 : index % 2 = 0 ∨ index % 2 = 1 := Nat.mod_two_eq_zero_or_one index
  have h64 : index < 18446744073709551616 := by exact_mod_cast h
  rcases h2 with h2 | h2 <;> simp [h2] <;> omega

end BasicLemmas

section ChainLemmas

/-- Unfolding of the modelled `is_ln_of` predicate. -/
theorem is_ln_of_iff {n : IMTNode} {k : Nat} :
    n.is_ln_of k = true ↔ n.key < k ∧ (k < n.next_key ∨ n.next_key = 0) := by
  simp [IMTNode.is_ln_of]

/-- Every nonempty list of naturals has a maximal member. -/
theorem exists_max_mem {l : List Nat} (h : l ≠ []) : ∃ m ∈ l, ∀ c ∈ l, c ≤ m := by
  induction l with
  | nil => exact absurd rfl h
  | cons a t ih =>
    by_cases ht : t = []
    · subst ht
      exact ⟨a, by simp, by simp⟩
    · obtain ⟨m, hm, hmax⟩ := ih ht
      by_cases ham : a ≤ m
      · refine ⟨m, by simp [hm], ?_⟩
        intro c hc
        rcases List.mem_cons.mp hc with rfl | hc
        · exact ham
        · exact hmax c hc
      · refine ⟨a, by simp, ?_⟩
        intro c hc
        rcases List.mem_cons.mp hc with rfl | hc
        · exact le_refl c
        · push_neg at ham
          exact le_trans (hmax c hc) (le_of_lt ham)

/-- Under the chain invariant, some live node is a low nullifier for any
absent key. -/
theorem ln_exists {imt : Imt} (hInv : Inv imt) {k : Nat}
    (hk : k ∉ imt.nodes.map IMTNode.key) :
    ∃ p ∈ imt.nodes, p.is_ln_of k = true := by
  have h0 : (0 : Nat) ∈ imt.nodes.map IMTNode.key := hInv.zero_mem
  have hkpos : 0 < k := by
    rcases Nat.eq_zero_or_pos k with h | h
    · exact absurd (h ▸ h0) hk
    · exact h
  have h0l : (0 : Nat) ∈ (imt.nodes.map IMTNode.key).filter (fun c => decide (c < k)) := by
    rw [List.mem_filter]
    exact ⟨h0, by simpa using hkpos⟩
  obtain ⟨m, hml, hmax⟩ := exists_max_mem (List.ne_nil_of_mem h0l)
  have hmkeys : m ∈ imt.nodes.map IMTNode.key := (List.mem_filter.mp hml).1
  have hmk : m < k := by simpa using (List.mem_filter.mp hml).2
  obtain ⟨p, hp, hpk⟩ := List.mem_map.mp hmkeys
  refine ⟨p, hp, is_ln_of_iff.mpr ⟨by omega, ?_⟩⟩
  rcases hInv.chain p hp with ⟨hb0, _⟩ | ⟨hbmem, hblt, _⟩
  · exact Or.inr hb0
  · left
    by_contra hle
    push_neg at hle
    have hne : p.next_key ≠ k := fun h => hk (h ▸ hbmem)
    have hmem2 : p.next_key ∈ (imt.nodes.map IMTNode.key).filter (fun c => decide (c < k)) := by
      rw [List.mem_filter]
      refine ⟨hbmem, ?_⟩
      simp
      omega
    have := hmax p.next_key hmem2
    omega

/-- Two low nullifiers cannot have strictly ordered keys. -/
theorem ln_key_not_lt {imt : Imt} (hInv : Inv imt) {k : Nat} {p q : IMTNode}
    (hp : p ∈ imt.nodes) (hpl : p.is_ln_of k = true)
    (hq : q ∈ imt.nodes) (hql : q.is_ln_of k = true) : ¬p.key < q.key := by
  intro hlt
  obtain ⟨hpk, hpnext⟩ := is_ln_of_iff.mp hpl
  obtain ⟨hqk, _⟩ := is_ln_of_iff.mp hql
  have hqmem : q.key ∈ imt.nodes.map IMTNode.key := List.mem_map_of_mem _ hq
  rcases hInv.chain p hp with ⟨_, hnone⟩ | ⟨_, hblt, hleast⟩
  · exact hnone q.key hqmem hlt
  · have hle := hleast q.key hqmem hlt
    rcases hpnext with hgt | h0 <;> omega

/-- The low nullifier of a key is unique among live nodes. -/
theorem ln_unique {imt : Imt} (hInv : Inv imt) {k : Nat} {p q : IMTNode}
    (hp : p ∈ imt.nodes) (hpl : p.is_ln_of k = true)
    (hq : q ∈ imt.nodes) (hql : q.is_ln_of k = true) : p = q := by
  have h1 := ln_key_not_lt hInv hp hpl hq hql
  have h2 := ln_key_not_lt hInv hq hql hp hpl
  exact eq_of_field_eq hInv.nodup hp hq (by omega)

/-- Under the invariants, the low-nullifier scan succeeds on any absent
key and returns the unique candidate. -/
theorem low_nullifier_spec {imt : Imt} (hInv : Inv imt) {k : Nat}
    (hk : k ∉ imt.nodes.map IMTNode.key) :
    ∃ p, low_nullifier imt k = some p ∧ p ∈ imt.nodes ∧ p.is_ln_of k = true ∧
      ∀ q ∈ imt.nodes, q.is_ln_of k = true → q = p := by
  obtain ⟨p0, hp0, hl0⟩ := ln_exists hInv hk
  have hs : (imt.nodes.find? (fun n => n.is_ln_of k)).isSome := by
    rw [List.find?_isSome]
    exact ⟨p0, hp0, hl0⟩
  obtain ⟨p, hp⟩ := Option.isSome_iff_exists.mp hs
  have hpm : p ∈ imt.nodes := List.mem_of_find?_eq_some hp
  have hpl : p.is_ln_of k = true := by
    have h1 := List.find?_some hp
    simpa using h1
  refine ⟨p, hp, hpm, hpl, ?_⟩
  intro q hq hql
  exact ln_unique hInv hq hql hpm hpl

/-- Splicing: the updated predecessor points at the fresh key. -/
theorem succOf_ln {keys : List Nat} {k a b : Nat}
    (hab : succOf keys a b) (hak : a < k) (hbk : k < b ∨ b = 0) :
    succOf (keys ++ [k]) a k := by
  right
  refine ⟨by simp, hak, ?_⟩
  intro c hc hac
  rcases List.mem_append.mp hc with hc | hc
  · rcases hab with ⟨hb0, hnone⟩ | ⟨_, hblt, hleast⟩
    · exact absurd hac (hnone c hc)
    · have := hleast c hc hac
      rcases hbk with h | h <;> omega
  · simp at hc
    omega

/-- Splicing: the fresh node keeps the predecessor's old successor. -/
theorem succOf_new {keys : List Nat} {k a b : Nat}
    (hab : succOf keys a b) (hak : a < k) (hbk : k < b ∨ b = 0) :
    succOf (keys ++ [k]) k b := by
  rcases hab with ⟨hb0, hnone⟩ | ⟨hbmem, hblt, hleast⟩
  · left
    refine ⟨hb0, ?_⟩
    intro c hc
    rcases List.mem_append.mp hc with hc | hc
    · have := hnone c hc
      omega
    · simp at hc
      omega
  · right
    have hkb : k < b := by
      rcases hbk with h | h <;> omega
    refine ⟨List.mem_append.mpr (Or.inl hbmem), hkb, ?_⟩
    intro c hc hkc
    rcases List.mem_append.mp hc with hc | hc
    · exact hleast c hc (by omega)
    · simp at hc
      omega

/-- Splicing: any node that is not the predecessor keeps its successor. -/
theorem succOf_other {keys : List Nat} {k a b : Nat}
    (hab : succOf keys a b) (hk : k ∉ keys)
    (hnot : ¬(a < k ∧ (k < b ∨ b = 0))) :
    succOf (keys ++ [k]) a b := by
  rcases hab with ⟨hb0, hnone⟩ | ⟨hbmem, hblt, hleast⟩
  · left
    refine ⟨hb0, ?_⟩
    intro c hc
    rcases List.mem_append.mp hc with hc | hc
    · exact hnone c hc
    · simp at hc
      subst hc
      intro hak
      exact hnot ⟨hak, Or.inr hb0⟩
  · right
    refine ⟨List.mem_append.mpr (Or.inl hbmem), hblt, ?_⟩
    intro c hc hac
    rcases List.mem_append.mp hc with hc | hc
    · exact hleast c hc hac
    · simp at hc
      subst hc
      by_contra hbk
      push_neg at hbk
      refine hnot ⟨hac, Or.inl ?_⟩
      have hbne : b ≠ c := fun h => hk (h ▸ hbmem)
      omega

end ChainLemmas


section ElimLemmas

variable {hasher keccak : List Nat → List Nat} {nodeBytes : IMTNode → List Nat}

/-- Inversion of a successful refresh: the node was found, the registry,
size and depth are untouched, and the cache, root and returned path are
the climb results. -/
theorem refreshTree_some_elim {imt : Imt} {kk : Nat} {imt2 : Imt}
    {sibs : List (Option Hash)}
    (h : refreshTree hasher keccak nodeBytes imt kk = some (imt2, sibs)) :
    ∃ node, imt.nodes.find? (fun n => n.key == kk) = some node ∧
      imt2.nodes = imt.nodes ∧ imt2.size = imt.size ∧ imt2.depth = imt.depth ∧
      imt2.hashes = (climbLoop keccak imt.depth
          (cacheInsert imt.hashes imt.depth node.index (hasher (nodeBytes node)))
          node.index (hasher (nodeBytes node))).1 ∧
      imt2.root = keccak ((climbLoop keccak imt.depth
          (cacheInsert imt.hashes imt.depth node.index (hasher (nodeBytes node)))
          node.index (hasher (nodeBytes node))).2.2.1 ++ u64be imt.size) ∧
      sibs = (climbLoop keccak imt.depth
          (cacheInsert imt.hashes imt.depth node.index (hasher (nodeBytes node)))
          node.index (hasher (nodeBytes node))).2.2.2 := by
  unfold refreshTree at h
  split at h
  · cases h
  · rename_i node hf
    injection h with h1
    rw [Prod.mk.injEq] at h1
    obtain ⟨h2, h3⟩ := h1
    subst h2
    subst h3
    exact ⟨node, hf, rfl, rfl, rfl, rfl, rfl, rfl⟩

/-- Inversion of a successful update: the key was live, the refresh ran on
the value-rewritten registry, and the bundle records the old root, the
size, the rewritten node and the returned path. -/
theorem updateNode_some_elim {imt : Imt} {k v : Nat} {imt2 : Imt} {m : IMTMutate}
    (h : updateNode hasher keccak nodeBytes imt k v = some (imt2, m)) :
    ∃ node0 sibs, imt.nodes.find? (fun n => n.key == k) = some node0 ∧
      refreshTree hasher keccak nodeBytes
        { imt with nodes := setValue imt.nodes k v } k = some (imt2, sibs) ∧
      m = .update imt.root imt.size { node0 with value := v } sibs v := by
  unfold updateNode at h
  simp only [] at h
  split at h
  · cases h
  · rename_i node0 hf
    split at h
    · cases h
    · rename_i imt5 sibs hr
      injection h with h1
      rw [Prod.mk.injEq] at h1
      obtain ⟨h2, h3⟩ := h1
      subst h2
      subst h3
      exact ⟨node0, sibs, hf, hr, rfl⟩

/-- Inversion of a successful insertion: capacity and uniqueness guards
passed, the low nullifier was found and its pre-mutation path captured,
the tree was refreshed from the spliced predecessor and then from the
appended fresh node, the post-mutation path captured, and the bundle
assembled from exactly these pieces. -/
theorem insertNode_some_elim {imt : Imt} {k v : Nat} {imt2 : Imt} {m : IMTMutate}
    (h : insertNode hasher keccak nodeBytes imt k v = some (imt2, m)) :
    ∃ p lnsibs imt3 sibs3 nodesibs updsibs,
      imt.size < maxSize imt.depth ∧
      imt.nodes.find? (fun n => n.key == k) = none ∧
      low_nullifier imt k = some p ∧
      siblings imt p.key = some lnsibs ∧
      refreshTree hasher keccak nodeBytes
        { imt with size := imt.size + 1, nodes := setNextKey imt.nodes p.key k } p.key
        = some (imt3, sibs3) ∧
      refreshTree hasher keccak nodeBytes
        { imt3 with nodes := imt3.nodes ++ [⟨imt.size + 1, k, v, p.next_key⟩] } k
        = some (imt2, nodesibs) ∧
      siblings imt2 p.key = some updsibs ∧
      m = .insert imt.root imt.size p lnsibs ⟨imt.size + 1, k, v, p.next_key⟩
            nodesibs updsibs := by
  unfold insertNode at h
  simp only [] at h
  split at h
  · rename_i hsz
    split at h
    · cases h
    · rename_i hconf
      split at h
      · cases h
      · rename_i p hln
        split at h
        · cases h
        · rename_i lnsibs hsib
          split at h
          · cases h
          · rename_i imt3 sibs3 hr1
            split at h
            · cases h
            · rename_i imt5 nodesibs hr2
              split at h
              · cases h
              · rename_i updsibs husib
                injection h with h1
                rw [Prod.mk.injEq] at h1
                obtain ⟨h2, h3⟩ := h1
                subst h2
                subst h3
                have hfind : imt.nodes.find? (fun n => n.key == k) = none :=
                  Option.not_isSome_iff_eq_none.mp (by simpa using hconf)
                exact ⟨p, lnsibs, imt3, sibs3, nodesibs, updsibs, hsz, hfind,
                  hln, hsib, hr1, hr2, husib, rfl⟩
  · cases h

end ElimLemmas

section InvLemmas

variable {hasher keccak : List Nat → List Nat} {nodeBytes : IMTNode → List Nat}

/-- Construction yields the sentinel-only registry with size zero. -/
theorem newTree_state (hasher keccak : List Nat → List Nat)
    (nodeBytes : IMTNode → List Nat) (depth : Nat) :
    (newTree hasher keccak nodeBytes depth).nodes = [⟨0, 0, 0, 0⟩] ∧
    (newTree hasher keccak nodeBytes depth).size = 0 ∧
    (newTree hasher keccak nodeBytes depth).depth = depth := by
  unfold newTree
  simp only []
  split
  · rename_i imt2 sibs hr
    obtain ⟨node, _, hn, hs, hd, _⟩ := refreshTree_some_elim hr
    exact ⟨by rw [hn], by rw [hs], by rw [hd]⟩
  · exact ⟨rfl, rfl, rfl⟩

/-- The freshly constructed tree satisfies the state invariants. -/
theorem newTree_Inv (hasher keccak : List Nat → List Nat)
    (nodeBytes : IMTNode → List Nat) (depth : Nat) :
    Inv (newTree hasher keccak nodeBytes depth) := by
  obtain ⟨hn, hs, hd⟩ := newTree_state hasher keccak nodeBytes depth
  constructor
  · rw [hn]
    simp
  · rw [hn]
    simp
  · rw [hn, hs]
    rfl
  · rw [hn]
    intro n hmem
    rw [List.mem_singleton] at hmem
    subst hmem
    left
    refine ⟨rfl, ?_⟩
    intro c hc
    simp at hc
    omega
  · rw [hs]
    exact Nat.zero_le _

theorem setValue_key (k v : Nat) (n : IMTNode) :
    ((if n.key = k then { n with value := v } else n) : IMTNode).key = n.key := by
  split <;> rfl

theorem setValue_index (k v : Nat) (n : IMTNode) :
    ((if n.key = k then { n with value := v } else n) : IMTNode).index = n.index := by
  split <;> rfl

theorem setValue_next (k v : Nat) (n : IMTNode) :
    ((if n.key = k then { n with value := v } else n) : IMTNode).next_key = n.next_key := by
  split <;> rfl

/-- A successful update preserves the state invariants. -/
theorem updateNode_Inv {imt : Imt} (hInv : Inv imt) {k v : Nat} {imt2 : Imt}
    {m : IMTMutate}
    (h : updateNode hasher keccak nodeBytes imt k v = some (imt2, m)) : Inv imt2 := by
  obtain ⟨node0, sibs, hf, hr, hm⟩ := updateNode_some_elim h
  obtain ⟨node, _, hn, hs, hd, _⟩ := refreshTree_some_elim hr
  have hn' : imt2.nodes = setValue imt.nodes k v := hn
  have hs' : imt2.size = imt.size := hs
  have hd' : imt2.depth = imt.depth := hd
  constructor
  · rw [hn', setValue_map_key]
    exact hInv.zero_mem
  · rw [hn', setValue_map_key]
    exact hInv.nodup
  · rw [hn', setValue_map_index, hs']
    exact hInv.idx
  · rw [hn', setValue_map_key]
    intro n hmem
    unfold setValue at hmem
    obtain ⟨q, hq, hgq⟩ := List.mem_map.mp hmem
    rw [← hgq, setValue_key, setValue_next]
    exact hInv.chain q hq
  · rw [hs', hd']
    exact hInv.size_le

/-- A successful insertion preserves the state invariants. -/
theorem insertNode_Inv {imt : Imt} (hInv : Inv imt) {k v : Nat} {imt2 : Imt}
    {m : IMTMutate}
    (h : insertNode hasher keccak nodeBytes imt k v = some (imt2, m)) : Inv imt2 := by
  obtain ⟨p, lnsibs, imt3, sibs3, nodesibs, updsibs, hsz, hfind, hln, hsib, hr1, hr2,
    husib, hm⟩ := insertNode_some_elim h
  have hp : p ∈ imt.nodes := List.mem_of_find?_eq_some hln
  have hpl : p.is_ln_of k = true := by simpa using List.find?_some hln
  have hk : k ∉ imt.nodes.map IMTNode.key := by
    intro hmem
    obtain ⟨q, hq, hqk⟩ := List.mem_map.mp hmem
    have hsome : (imt.nodes.find? (fun n => n.key == k)).isSome := by
      rw [List.find?_isSome]
      exact ⟨q, hq, by simp [hqk]⟩
    rw [hfind] at hsome
    cases hsome
  obtain ⟨n3, _, h3n, h3s, h3d, _⟩ := refreshTree_some_elim hr1
  obtain ⟨n5, _, h5n, h5s, h5d, _⟩ := refreshTree_some_elim hr2
  have h3n' : imt3.nodes = setNextKey imt.nodes p.key k := h3n
  have h3s' : imt3.size = imt.size + 1 := h3s
  have h3d' : imt3.depth = imt.depth := h3d
  have h5n' : imt2.nodes = imt3.nodes ++ [(⟨imt.size + 1, k, v, p.next_key⟩ : IMTNode)] := h5n
  have h5s' : imt2.size = imt3.size := h5s
  have h5d' : imt2.depth = imt3.depth := h5d
  have hnodes : imt2.nodes
      = setNextKey imt.nodes p.key k ++ [(⟨imt.size + 1, k, v, p.next_key⟩ : IMTNode)] := by
    rw [h5n', h3n']
  have hsize : imt2.size = imt.size + 1 := by rw [h5s', h3s']
  have hdepth : imt2.depth = imt.depth := by rw [h5d', h3d']
  have hkeys : imt2.nodes.map IMTNode.key = imt.nodes.map IMTNode.key ++ [k] := by
    rw [hnodes, List.map_append, setNextKey_map_key]
    rfl
  obtain ⟨hplt, hpnext⟩ := is_ln_of_iff.mp hpl
  constructor
  · rw [hkeys]
    exact List.mem_append.mpr (Or.inl hInv.zero_mem)
  · rw [hkeys]
    refine List.Nodup.append hInv.nodup (by simp) ?_
    intro a ha hb
    simp at hb
    subst hb
    exact hk ha
  · rw [hnodes, List.map_append, setNextKey_map_index, hInv.idx, hsize]
    rw [show List.range (imt.size + 1 + 1)
        = List.range (imt.size + 1) ++ [imt.size + 1] from List.range_succ (imt.size + 1)]
    rfl
  · rw [hkeys]
    intro n hmem
    rw [hnodes] at hmem
    rcases List.mem_append.mp hmem with hmem | hmem
    · unfold setNextKey at hmem
      obtain ⟨q, hq, hgq⟩ := List.mem_map.mp hmem
      by_cases hqp : q.key = p.key
      · have hqe : q = p := eq_of_field_eq hInv.nodup hq hp hqp
        subst hqe
        rw [← hgq]
        simp only [if_pos rfl]
        exact succOf_ln (hInv.chain q hq) hplt hpnext
      · rw [← hgq]
        simp only [if_neg hqp]
        apply succOf_other (hInv.chain q hq) hk
        intro hcon
        have hql : q.is_ln_of k = true := is_ln_of_iff.mpr hcon
        exact hqp (congrArg IMTNode.key (ln_unique hInv hq hql hp hpl))
    · simp at hmem
      subst hmem
      exact succOf_new (hInv.chain p hp) hplt hpnext
  · rw [hsize, hdepth]
    omega

end InvLemmas

section SomeLemmas

variable {hasher keccak : List Nat → List Nat} {nodeBytes : IMTNode → List Nat}

/-- A refresh succeeds exactly when the key is live. -/
theorem refreshTree_isSome (hasher keccak : List Nat → List Nat)
    (nodeBytes : IMTNode → List Nat) (imt : Imt) (kk : Nat) :
    (refreshTree hasher keccak nodeBytes imt kk).isSome
      = (imt.nodes.find? (fun n => n.key == kk)).isSome := by
  unfold refreshTree
  cases imt.nodes.find? (fun n => n.key == kk) <;> rfl

/-- The read-only path query succeeds exactly when the key is live. -/
theorem siblings_isSome (imt : Imt) (kk : Nat) :
    (siblings imt kk).isSome = (imt.nodes.find? (fun n => n.key == kk)).isSome := by
  unfold siblings
  cases imt.nodes.find? (fun n => n.key == kk) <;> rfl

/-- State shape after a successful insertion: the predecessor's `next_key`
is rewritten to the fresh key and the fresh node (index `size + 1`,
`next_key` spliced from the predecessor) is appended; the size grows by
one; the bundle's `old_size` is the pre-insertion size. -/
theorem insertNode_state {imt : Imt} {k v : Nat} {imt2 : Imt} {m : IMTMutate}
    (h : insertNode hasher keccak nodeBytes imt k v = some (imt2, m)) :
    ∃ p, low_nullifier imt k = some p ∧
      imt2.nodes = setNextKey imt.nodes p.key k
          ++ [(⟨imt.size + 1, k, v, p.next_key⟩ : IMTNode)] ∧
      imt2.size = imt.size + 1 ∧ imt2.depth = imt.depth ∧
      imt.size < maxSize imt.depth ∧
      imt.nodes.find? (fun n => n.key == k) = none ∧
      m.oldSize = imt.size := by
  obtain ⟨p, lnsibs, imt3, sibs3, nodesibs, updsibs, hsz, hfind, hln, hsib, hr1, hr2,
    husib, hm⟩ := insertNode_some_elim h
  obtain ⟨n3, _, h3n, h3s, h3d, _⟩ := refreshTree_some_elim hr1
  obtain ⟨n5, _, h5n, h5s, h5d, _⟩ := refreshTree_some_elim hr2
  have h3n' : imt3.nodes = setNextKey imt.nodes p.key k := h3n
  have h3s' : imt3.size = imt.size + 1 := h3s
  have h3d' : imt3.depth = imt.depth := h3d
  have h5n' : imt2.nodes = imt3.nodes ++ [(⟨imt.size + 1, k, v, p.next_key⟩ : IMTNode)] := h5n
  have h5s' : imt2.size = imt3.size := h5s
  have h5d' : imt2.depth = imt3.depth := h5d
  refine ⟨p, hln, ?_, ?_, ?_, hsz, hfind, ?_⟩
  · rw [h5n', h3n']
  · rw [h5s', h3s']
  · rw [h5d', h3d']
  · rw [hm]
    rfl

/-- An insertion whose guards pass succeeds: the low nullifier exists
under the invariants, and every internal lookup lands on a live key. -/
theorem insertNode_isSome (hasher keccak : List Nat → List Nat)
    (nodeBytes : IMTNode → List Nat) {imt : Imt} (hInv : Inv imt) {k : Nat} (v : Nat)
    (hsz : imt.size < maxSize imt.depth)
    (hkn : k ∉ imt.nodes.map IMTNode.key) :
    (insertNode hasher keccak nodeBytes imt k v).isSome = true := by
  have hfind : imt.nodes.find? (fun n => n.key == k) = none := by
    rw [List.find?_eq_none]
    intro x hx
    simp only [beq_iff_eq]
    intro hxk
    exact hkn (hxk ▸ List.mem_map_of_mem IMTNode.key hx)
  obtain ⟨p, hlnl, hpmem, hpl, huniq⟩ := low_nullifier_spec hInv hkn
  have hfp : imt.nodes.find? (fun n => n.key == p.key) = some p :=
    find?_field_self hInv.nodup hpmem
  have hfp2 : (setNextKey imt.nodes p.key k).find? (fun n => n.key == p.key)
      = some (if p.key = p.key then { p with next_key := k } else p) := by
    unfold setNextKey
    rw [find?_map_field (fun n => setNextKey_key p.key k n), hfp]
    rfl
  have hfk2 : (setNextKey imt.nodes p.key k).find? (fun n => n.key == k) = none := by
    unfold setNextKey
    rw [find?_map_field (fun n => setNextKey_key p.key k n), hfind]
    rfl
  unfold insertNode
  simp only []
  rw [if_pos hsz, hfind]
  rw [if_neg (by simp)]
  split
  · rename_i hnone
    have hlnl' : low_nullifier
        { root := imt.root, depth := imt.depth, size := imt.size + 1,
          nodes := imt.nodes, hashes := imt.hashes } k = some p := hlnl
    rw [hlnl'] at hnone
    cases hnone
  · rename_i q hq
    have hlnl' : low_nullifier
        { root := imt.root, depth := imt.depth, size := imt.size + 1,
          nodes := imt.nodes, hashes := imt.hashes } k = some p := hlnl
    rw [hlnl'] at hq
    injection hq with hq
    subst hq
    split
    · rename_i hnone
      have hsib : (siblings
          { root := imt.root, depth := imt.depth, size := imt.size + 1,
            nodes := imt.nodes, hashes := imt.hashes } p.key).isSome = true := by
        rw [siblings_isSome]
        exact (Option.isSome_iff_exists.mpr ⟨p, hfp⟩ : (imt.nodes.find? (fun n => n.key == p.key)).isSome = true)
      rw [hnone] at hsib
      cases hsib
    · rename_i lnsibs hlnsibs
      split
      · rename_i hnone
        have hrs : (refreshTree hasher keccak nodeBytes
            { root := imt.root, depth := imt.depth, size := imt.size + 1,
              nodes := setNextKey imt.nodes p.key k, hashes := imt.hashes } p.key).isSome
            = true := by
          rw [refreshTree_isSome]
          exact (Option.isSome_iff_exists.mpr ⟨_, hfp2⟩ :
            ((setNextKey imt.nodes p.key k).find? (fun n => n.key == p.key)).isSome = true)
        rw [hnone] at hrs
        cases hrs
      · rename_i imt3 sibs3 hr1
        obtain ⟨n3, _, h3n, _, _, _⟩ := refreshTree_some_elim hr1
        have h3n' : imt3.nodes = setNextKey imt.nodes p.key k := h3n
        split
        · rename_i hnone
          have hfk3 : (imt3.nodes
              ++ [(⟨imt.size + 1, k, v, p.next_key⟩ : IMTNode)]).find?
                (fun n => n.key == k)
              = some (⟨imt.size + 1, k, v, p.next_key⟩ : IMTNode) := by
            rw [List.find?_append, h3n', hfk2]
            simp
          have hrs : (refreshTree hasher keccak nodeBytes
              { root := imt3.root, depth := imt3.depth, size := imt3.size,
                nodes := imt3.nodes ++ [(⟨imt.size + 1, k, v, p.next_key⟩ : IMTNode)],
                hashes := imt3.hashes } k).isSome = true := by
            rw [refreshTree_isSome]
            exact (Option.isSome_iff_exists.mpr ⟨_, hfk3⟩ :
              ((imt3.nodes ++ [(⟨imt.size + 1, k, v, p.next_key⟩ : IMTNode)]).find?
                (fun n => n.key == k)).isSome = true)
          rw [hnone] at hrs
          cases hrs
        · rename_i imt5 nodesibs hr2
          obtain ⟨n5, _, h5n, _, _, _⟩ := refreshTree_some_elim hr2
          have h5n' : imt5.nodes = imt3.nodes
              ++ [(⟨imt.size + 1, k, v, p.next_key⟩ : IMTNode)] := h5n
          split
          · rename_i hnone
            have hfp5 : (imt5.nodes.find? (fun n => n.key == p.key)).isSome = true := by
              rw [h5n', List.find?_append, h3n', hfp2]
              rfl
            have hsb : (siblings imt5 p.key).isSome = true := by
              rw [siblings_isSome]
              exact hfp5
            rw [hnone] at hsb
            cases hsb
          · rfl
  
/-- An update succeeds exactly when the key is live. -/
theorem updateNode_isSome (hasher keccak : List Nat → List Nat)
    (nodeBytes : IMTNode → List Nat) (imt : Imt) (k v : Nat) :
    (updateNode hasher keccak nodeBytes imt k v).isSome
      = (imt.nodes.find? (fun n => n.key == k)).isSome := by
  unfold updateNode
  simp only []
  cases hf : imt.nodes.find? (fun n => n.key == k) with
  | none => rfl
  | some node0 =>
    simp only [Option.isSome_some]
    split
    · rename_i hnone
      have hf2 : ((setValue imt.nodes k v).find? (fun n => n.key == k)).isSome = true := by
        unfold setValue
        rw [find?_map_field (fun n => setValue_key k v n), hf]
        rfl
      have hrs : (refreshTree hasher keccak nodeBytes
          { root := imt.root, depth := imt.depth, size := imt.size,
            nodes := setValue imt.nodes k v, hashes := imt.hashes } k).isSome = true := by
        rw [refreshTree_isSome]
        exact hf2
      rw [hnone] at hrs
      cases hrs
    · rfl

end SomeLemmas

section MoreHelpers

/-- Deciding the successor predicate (used to check the invariants on
concrete states). -/
instance succOf.dec (keys : List Nat) (a b : Nat) : Decidable (succOf keys a b) := by
  unfold succOf
  infer_instance

/-- An absent find? by key means the key is not among live keys. -/
theorem key_not_mem_of_find?_eq_none {nodes : List IMTNode} {k : Nat}
    (h : nodes.find? (fun n => n.key == k) = none) :
    k ∉ nodes.map IMTNode.key := by
  intro hmem
  obtain ⟨q, hq, hqk⟩ := List.mem_map.mp hmem
  have := List.find?_eq_none.mp h q hq
  simp [hqk] at this

/-- With distinct keys, filtering on a member's key yields that member
alone. -/
theorem filter_key_singleton {nodes : List IMTNode}
    (hn : (nodes.map IMTNode.key).Nodup) {p : IMTNode} (hp : p ∈ nodes) :
    nodes.filter (fun n => n.key == p.key) = [p] := by
  induction nodes with
  | nil => cases hp
  | cons a t ih =>
    rw [List.map_cons, List.nodup_cons] at hn
    obtain ⟨hna, hnt⟩ := hn
    rcases List.mem_cons.mp hp with rfl | hp
    · rw [List.filter_cons_of_pos (by simp)]
      have hnil : t.filter (fun n => n.key == p.key) = [] := by
        rw [List.filter_eq_nil_iff]
        intro b hb
        simp only [beq_iff_eq]
        intro hbk
        exact hna (hbk ▸ List.mem_map_of_mem IMTNode.key hb)
      rw [hnil]
    · rw [List.filter_cons_of_neg ?_]
      · exact ih hnt hp
      · simp only [beq_iff_eq]
        intro hak
        exact hna (hak ▸ List.mem_map_of_mem IMTNode.key hp)

end MoreHelpers

/-- Concrete injected hasher for witnesses: tags its input with 1. -/
def hasherEx : List Nat → List Nat := fun l => 1 :: l

/-- Concrete stand-in for the fixed Keccak-256 in witnesses: tags with 2. -/
def keccakEx : List Nat → List Nat := fun l => 2 :: l

/-- A second stand-in hash, used to exhibit dependence on the fixed hash. -/
def keccakEx2 : List Nat → List Nat := fun l => 3 :: l

/-- Concrete node serialization for witnesses. -/
def nodeBytesEx : IMTNode → List Nat := fun n => [n.index, n.key, n.value, n.next_key]

/-- Depth-2 example tree (spec testable-properties scenario). -/
def t0Ex : Imt := newTree hasherEx keccakEx nodeBytesEx 2

/-- Fallback pair for extracting concrete operation results. -/
def dummyEx : Imt × IMTMutate := (t0Ex, .update [] 0 ⟨0, 0, 0, 0⟩ [] 0)

/-- Result of inserting key 5 into the example tree. -/
def ins1Ex : Imt × IMTMutate := (insertNode hasherEx keccakEx nodeBytesEx t0Ex 5 100).getD dummyEx

/-- Example tree after one insertion. -/
def t1Ex : Imt := ins1Ex.1

/-- Result of inserting key 10 next. -/
def ins2Ex : Imt × IMTMutate := (insertNode hasherEx keccakEx nodeBytesEx t1Ex 10 200).getD dummyEx

/-- Example tree after two insertions. -/
def t2Ex : Imt := ins2Ex.1

/-- Result of inserting key 7 third (the splice between 5 and 10). -/
def ins3Ex : Imt × IMTMutate := (insertNode hasherEx keccakEx nodeBytesEx t2Ex 7 300).getD dummyEx

/-- Result of updating key 5 in the two-insertion tree. -/
def upd1Ex : Imt × IMTMutate := (updateNode hasherEx keccakEx nodeBytesEx t2Ex 5 999).getD dummyEx

/-- The invariants hold for the concrete two-insertion tree. -/
theorem inv_t2Ex : Inv t2Ex := by
  constructor <;> decide

/-- The invariants hold for the concrete base tree. -/
theorem inv_t0Ex : Inv t0Ex := by
  constructor <;> decide

/-- C5: for every key `k` not present in the tree, the predecessor
(low-nullifier) search returns the unique live node `p` with `p.key < k`
and (`p.next_key > k` or `p.next_key` equal to the sentinel `0`); such a
node always exists under the chain invariant, so the search never fails. -/
theorem C5_low_nullifier_found {imt : Imt} (hInv : Inv imt) {k : Nat}
    (hk : k ∉ imt.nodes.map IMTNode.key) :
    ∃ p, low_nullifier imt k = some p ∧ p ∈ imt.nodes ∧
      p.key < k ∧ (k < p.next_key ∨ p.next_key = 0) ∧
      ∀ q ∈ imt.nodes, q.key < k → (k < q.next_key ∨ q.next_key = 0) → q = p := by
  obtain ⟨p, h1, h2, h3, h4⟩ := low_nullifier_spec hInv hk
  obtain ⟨h5, h6⟩ := is_ln_of_iff.mp h3
  exact ⟨p, h1, h2, h5, h6, fun q hq hq1 hq2 => h4 q hq (is_ln_of_iff.mpr ⟨hq1, hq2⟩)⟩

/-- Witness for C5 on the concrete two-insertion tree (keys 0, 5, 10) and
the absent key 7: checks the hypotheses at that input. -/
theorem C5_low_nullifier_found_witness :
    ∃ p, low_nullifier t2Ex 7 = some p ∧ p ∈ t2Ex.nodes ∧
      p.key < 7 ∧ (7 < p.next_key ∨ p.next_key = 0) ∧
      ∀ q ∈ t2Ex.nodes, q.key < 7 → (7 < q.next_key ∨ q.next_key = 0) → q = p :=
  C5_low_nullifier_found inv_t2Ex (by decide)

/-- C9: construction establishes, and every successful insert or update
preserves, the state invariants: a live sentinel key, unique keys, the
append-only index sequence `0..=size`, the strictly increasing `next_key`
chain terminating at the sentinel value, and `size ≤ 2 ^ depth - 1`
(failed operations return no state in this embedding, so they trivially
leave the invariants intact). -/
theorem C9_invariants_preserved (hasher keccak : List Nat → List Nat)
    (nodeBytes : IMTNode → List Nat) (depth : Nat) :
    Inv (newTree hasher keccak nodeBytes depth) ∧
    (∀ imt k v imt2 m, Inv imt →
      insertNode hasher keccak nodeBytes imt k v = some (imt2, m) → Inv imt2) ∧
    (∀ imt k v imt2 m, Inv imt →
      updateNode hasher keccak nodeBytes imt k v = some (imt2, m) → Inv imt2) :=
  ⟨newTree_Inv hasher keccak nodeBytes depth,
   fun _ _ _ _ _ hI h => insertNode_Inv hI h,
   fun _ _ _ _ _ hI h => updateNode_Inv hI h⟩

/-- Witness for C9: the invariants transported along the concrete example
operations. -/
theorem C9_invariants_preserved_witness :
    Inv (newTree hasherEx keccakEx nodeBytesEx 2) ∧ Inv t1Ex ∧ Inv upd1Ex.1 :=
  ⟨(C9_invariants_preserved hasherEx keccakEx nodeBytesEx 2).1,
   (C9_invariants_preserved hasherEx keccakEx nodeBytesEx 2).2.1 t0Ex 5 100 t1Ex
     ins1Ex.2 inv_t0Ex rfl,
   (C9_invariants_preserved hasherEx keccakEx nodeBytesEx 2).2.2 t2Ex 5 999 upd1Ex.1
     upd1Ex.2 inv_t2Ex rfl⟩

/-- C10: during a successful insert the size is incremented before the
predecessor's `next_key` is rewritten and the tree refreshed from the
predecessor's leaf, so the intermediate root produced by that first
refresh already binds `old size + 1`; only the bundle's `old_size` field
records the pre-insertion size. -/
theorem C10_first_refresh_binds_new_size (hasher keccak : List Nat → List Nat)
    (nodeBytes : IMTNode → List Nat) {imt : Imt} {k v : Nat} {imt2 : Imt}
    {m : IMTMutate}
    (h : insertNode hasher keccak nodeBytes imt k v = some (imt2, m)) :
    m.oldSize = imt.size ∧
    ∃ p imtMid sibsMid top,
      low_nullifier imt k = some p ∧
      refreshTree hasher keccak nodeBytes
        { imt with size := imt.size + 1, nodes := setNextKey imt.nodes p.key k } p.key
        = some (imtMid, sibsMid) ∧
      imtMid.size = imt.size + 1 ∧
      imtMid.root = keccak (top ++ u64be (imt.size + 1)) := by
  obtain ⟨p, lnsibs, imt3, sibs3, nodesibs, updsibs, hsz, hfind, hln, hsib, hr1, hr2,
    husib, hm⟩ := insertNode_some_elim h
  obtain ⟨n3, hf3, h3n, h3s, h3d, h3h, h3root, h3sib⟩ := refreshTree_some_elim hr1
  exact ⟨by rw [hm]; rfl, p, imt3, sibs3, _, hln, hr1, h3s, h3root⟩

/-- Witness for C10 at the concrete first insertion. -/
theorem C10_first_refresh_binds_new_size_witness :
    ins1Ex.2.oldSize = t0Ex.size ∧
    ∃ p imtMid sibsMid top,
      low_nullifier t0Ex 5 = some p ∧
      refreshTree hasherEx keccakEx nodeBytesEx
        { t0Ex with size := t0Ex.size + 1, nodes := setNextKey t0Ex.nodes p.key 5 } p.key
        = some (imtMid, sibsMid) ∧
      imtMid.size = t0Ex.size + 1 ∧
      imtMid.root = keccakEx (top ++ u64be (t0Ex.size + 1)) :=
  C10_first_refresh_binds_new_size hasherEx keccakEx nodeBytesEx rfl

/-- C8: at each level of the climb, the sibling position computed by the
wrapping expression is `index + 1` for an even index and `index - 1` for
an odd one (even child left, odd child right), and when no digest is
cached at the sibling position the combination step hashes the present
child's digest alone — never a zero-filled sibling. -/
theorem C8_sibling_and_absence (keccak : List Nat → List Nat) {index : Nat}
    (h : index < 2 ^ 64) :
    (index % 2 = 0 → sibStep index = index + 1) ∧
    (index % 2 = 1 → sibStep index = index - 1) ∧
    (∀ hash : Hash, combineStep keccak index hash none = keccak hash) ∧
    (∀ hash s : Hash, index % 2 = 0 →
      combineStep keccak index hash (some s) = keccak (hash ++ s)) ∧
    (∀ hash s : Hash, index % 2 = 1 →
      combineStep keccak index hash (some s) = keccak (s ++ hash)) := by
  refine ⟨?_, ?_, ?_, ?_, ?_⟩
  · intro he
    rw [sibStep_eq h, if_pos he]
  · intro ho
    rw [sibStep_eq h, if_neg (by omega)]
  · intro hash
    unfold combineStep
    by_cases he : index % 2 = 0
    · rw [if_pos he]
    · rw [if_neg he]
  · intro hash s he
    unfold combineStep
    rw [if_pos he]
  · intro hash s ho
    unfold combineStep
    rw [if_neg (by omega)]

/-- Witness for C8 at the concrete odd index 5. -/
theorem C8_sibling_and_absence_witness :
    (5 % 2 = 0 → sibStep 5 = 5 + 1) ∧
    (5 % 2 = 1 → sibStep 5 = 5 - 1) ∧
    (∀ hash : Hash, combineStep keccakEx 5 hash none = keccakEx hash) ∧
    (∀ hash s : Hash, 5 % 2 = 0 →
      combineStep keccakEx 5 hash (some s) = keccakEx (hash ++ s)) ∧
    (∀ hash s : Hash, 5 % 2 = 1 →
      combineStep keccakEx 5 hash (some s) = keccakEx (s ++ hash)) :=
  C8_sibling_and_absence keccakEx (by decide)

/-- C4: under the invariants (and a meaningful depth, below the `u64` shift
width), an insert fails exactly at capacity (`size = 2 ^ depth - 1`) or on
a live key, and an update fails exactly on an absent key; a failing
operation returns no new state in this embedding — the pure counterpart of
aborting before any mutation, matching the source where both `assert!`s
precede every write. -/
theorem C4_failure_conditions (hasher keccak : List Nat → List Nat)
    (nodeBytes : IMTNode → List Nat) {imt : Imt} (hInv : Inv imt)
    (hd : imt.depth < 64) (k v : Nat) :
    (insertNode hasher keccak nodeBytes imt k v = none ↔
      imt.size = 2 ^ imt.depth - 1 ∨ k ∈ imt.nodes.map IMTNode.key) ∧
    (updateNode hasher keccak nodeBytes imt k v = none ↔
      k ∉ imt.nodes.map IMTNode.key) := by
  have hmax : maxSize imt.depth = 2 ^ imt.depth - 1 := by
    unfold maxSize
    rw [Nat.mod_eq_of_lt hd]
  have hfin : (imt.nodes.find? (fun n => n.key == k)).isSome = true
      ↔ k ∈ imt.nodes.map IMTNode.key := by
    rw [List.find?_isSome]
    constructor
    · rintro ⟨x, hx, hxk⟩
      simp only [beq_iff_eq] at hxk
      exact hxk ▸ List.mem_map_of_mem IMTNode.key hx
    · intro hm
      obtain ⟨x, hx, hxk⟩ := List.mem_map.mp hm
      exact ⟨x, hx, by simp [hxk]⟩
  constructor
  · constructor
    · intro hnone
      by_contra hcon
      push_neg at hcon
      obtain ⟨hne, hkn⟩ := hcon
      have hlt : imt.size < maxSize imt.depth := by
        have hle := hInv.size_le
        rw [hmax] at hle ⊢
        omega
      have hs := insertNode_isSome hasher keccak nodeBytes hInv v hlt hkn
      rw [hnone] at hs
      cases hs
    · intro hor
      cases hres : insertNode hasher keccak nodeBytes imt k v with
      | none => rfl
      | some pr =>
        obtain ⟨p, hln, hnodes, hsz2, hd2, hszlt, hfind, hold⟩ :=
          insertNode_state (show _ = some (pr.1, pr.2) from hres)
        rcases hor with hcap | hmem
        · rw [hmax] at hszlt
          omega
        · have := hfin.mpr hmem
          rw [hfind] at this
          cases this
  · constructor
    · intro hnone hmem
      have h1 := updateNode_isSome hasher keccak nodeBytes imt k v
      rw [hnone] at h1
      have h2 := hfin.mpr hmem
      rw [← h1] at h2
      cases h2
    · intro hkn
      cases hres : updateNode hasher keccak nodeBytes imt k v with
      | none => rfl
      | some pr =>
        have h1 := updateNode_isSome hasher keccak nodeBytes imt k v
        rw [hres] at h1
        have h2 : (imt.nodes.find? (fun n => n.key == k)).isSome = true := by
          rw [← h1]
          rfl
        exact absurd (hfin.mp h2) hkn

/-- Witness for C4 at the concrete two-insertion tree with absent key 7:
insert does not fail, update does. -/
theorem C4_failure_conditions_witness :
    (insertNode hasherEx keccakEx nodeBytesEx t2Ex 7 0 = none ↔
      t2Ex.size = 2 ^ t2Ex.depth - 1 ∨ 7 ∈ t2Ex.nodes.map IMTNode.key) ∧
    (updateNode hasherEx keccakEx nodeBytesEx t2Ex 7 0 = none ↔
      7 ∉ t2Ex.nodes.map IMTNode.key) :=
  C4_failure_conditions hasherEx keccakEx nodeBytesEx inv_t2Ex (by decide) 7 0

/-- C6: after a successful `insert(k, v)`, exactly one live node has
`next_key = k` — the predecessor found by the low-nullifier search — and
the newly created node's `next_key` equals the value the predecessor's
`next_key` held immediately before the insertion. -/
theorem C6_splice_correct (hasher keccak : List Nat → List Nat)
    (nodeBytes : IMTNode → List Nat) {imt : Imt} (hInv : Inv imt)
    {k v : Nat} {imt2 : Imt} {m : IMTMutate}
    (h : insertNode hasher keccak nodeBytes imt k v = some (imt2, m)) :
    ∃ p, low_nullifier imt k = some p ∧
      imt2.nodes.filter (fun n => n.next_key == k)
        = [{ p with next_key := k }] ∧
      imt2.nodes.find? (fun n => n.key == k)
        = some ⟨imt.size + 1, k, v, p.next_key⟩ := by
  obtain ⟨p, hln, hnodes, hsz2, hd2, hszlt, hfind, hold⟩ := insertNode_state h
  have hp : p ∈ imt.nodes := List.mem_of_find?_eq_some hln
  have hpl : p.is_ln_of k = true := by simpa using List.find?_some hln
  have hkn : k ∉ imt.nodes.map IMTNode.key := key_not_mem_of_find?_eq_none hfind
  have hk0 : k ≠ 0 := by
    intro h0
    exact hkn (h0 ▸ hInv.zero_mem)
  have hnk : ∀ q ∈ imt.nodes, q.next_key ≠ k := by
    intro q hq hqk
    rcases hInv.chain q hq with ⟨hb0, _⟩ | ⟨hbmem, _, _⟩
    · exact hk0 (by omega)
    · exact hkn (hqk ▸ hbmem)
  refine ⟨p, hln, ?_, ?_⟩
  · rw [hnodes, List.filter_append]
    have h2 : List.filter (fun n => n.next_key == k)
        [(⟨imt.size + 1, k, v, p.next_key⟩ : IMTNode)] = [] := by
      rw [List.filter_eq_nil_iff]
      intro b hb
      simp only [List.mem_singleton] at hb
      subst hb
      simp only [beq_iff_eq]
      exact hnk p hp
    rw [h2, List.append_nil]
    unfold setNextKey
    rw [List.filter_map]
    have hcongr : ∀ q ∈ imt.nodes,
        ((fun n => n.next_key == k) ∘
          fun n => if n.key = p.key then { n with next_key := k } else n) q
          = (fun n => n.key == p.key) q := by
      intro q hq
      simp only [Function.comp]
      by_cases hqp : q.key = p.key
      · simp [hqp]
      · rw [if_neg hqp]
        simp [hnk q hq, hqp]
    rw [List.filter_congr hcongr, filter_key_singleton hInv.nodup hp]
    simp
  · rw [hnodes, List.find?_append]
    have h1 : (setNextKey imt.nodes p.key k).find? (fun n => n.key == k) = none := by
      unfold setNextKey
      rw [find?_map_field (fun n => setNextKey_key p.key k n), hfind]
      rfl
    rw [h1]
    simp

/-- Witness for C6 at the concrete third insertion (key 7 between 5 and
10). -/
theorem C6_splice_correct_witness :
    ∃ p, low_nullifier t2Ex 7 = some p ∧
      ins3Ex.1.nodes.filter (fun n => n.next_key == 7)
        = [{ p with next_key := 7 }] ∧
      ins3Ex.1.nodes.find? (fun n => n.key == 7)
        = some ⟨t2Ex.size + 1, 7, 300, p.next_key⟩ :=
  C6_splice_correct hasherEx keccakEx nodeBytesEx inv_t2Ex rfl

section ClimbLemmas

/-- The climb writes only at the ancestor positions of its start index:
every other cache cell is untouched. -/
theorem climbLoop_frame (keccak : List Nat → List Nat) :
    ∀ (lv : Nat) (cache : Nat → Nat → Option Hash) (j : Nat) (h : Hash)
      (level pos : Nat),
      (∀ m, m < lv → ¬(level = m ∧ pos = j / 2 ^ (lv - m))) →
      (climbLoop keccak lv cache j h).1 level pos = cache level pos := by
  intro lv
  induction lv with
  | zero =>
    intro cache j h level pos _
    rfl
  | succ l ih =>
    intro cache j h level pos hoff
    simp only [climbLoop]
    rw [ih]
    · unfold cacheInsert
      rw [if_neg ?_]
      intro ⟨h1, h2⟩
      refine hoff l (by omega) ⟨h1, ?_⟩
      rw [h2]
      rw [show l + 1 - l = 1 from by omega, pow_one]
    · intro m hm
      intro ⟨h1, h2⟩
      refine hoff m (by omega) ⟨h1, ?_⟩
      rw [h2, Nat.div_div_eq_div_mul, ← pow_succ']
      rw [show l - m + 1 = l + 1 - m from by omega]

/-- The empty registry yields no subtree digest anywhere. -/
theorem subtreeHash_nil (hasher keccak : List Nat → List Nat)
    (nodeBytes : IMTNode → List Nat) :
    ∀ d pos, subtreeHash hasher keccak nodeBytes [] d pos = none := by
  intro d
  induction d with
  | zero =>
    intro pos
    rfl
  | succ d ih =>
    intro pos
    unfold subtreeHash
    rw [ih (2 * pos), ih (2 * pos + 1)]

/-- Two registries agreeing (by index lookup) on every leaf of a subtree
give it the same digest. -/
theorem subtreeHash_congr (hasher keccak : List Nat → List Nat)
    (nodeBytes : IMTNode → List Nat) {N1 N2 : List IMTNode} :
    ∀ (d pos : Nat),
      (∀ q, q / 2 ^ d = pos →
        N1.find? (fun n => n.index == q) = N2.find? (fun n => n.index == q)) →
      subtreeHash hasher keccak nodeBytes N1 d pos
        = subtreeHash hasher keccak nodeBytes N2 d pos := by
  intro d
  induction d with
  | zero =>
    intro pos hq
    unfold subtreeHash
    rw [hq pos (Nat.div_one pos)]
  | succ d ih =>
    intro pos hq
    unfold subtreeHash
    rw [ih (2 * pos) ?_, ih (2 * pos + 1) ?_]
    · intro q hqd
      apply hq
      rw [pow_succ, ← Nat.div_div_eq_div_mul, hqd]
      omega
    · intro q hqd
      apply hq
      rw [pow_succ, ← Nat.div_div_eq_div_mul, hqd]
      omega

/-- A subtree containing an occupied leaf has a digest. -/
theorem subtreeHash_isSome (hasher keccak : List Nat → List Nat)
    (nodeBytes : IMTNode → List Nat) {nodes : List IMTNode} {i : Nat}
    (hf : (nodes.find? (fun n => n.index == i)).isSome = true) :
    ∀ d, (subtreeHash hasher keccak nodeBytes nodes d (i / 2 ^ d)).isSome = true := by
  intro d
  induction d with
  | zero =>
    unfold subtreeHash
    simpa using hf
  | succ d ih =>
    unfold subtreeHash
    have hdd : i / 2 ^ (d + 1) = (i / 2 ^ d) / 2 := by
      rw [pow_succ, ← Nat.div_div_eq_div_mul]
    rw [hdd]
    obtain ⟨x, hx⟩ := Option.isSome_iff_exists.mp ih
    rcases Nat.mod_two_eq_zero_or_one (i / 2 ^ d) with hr | hr
    · have h2 : 2 * ((i / 2 ^ d) / 2) = i / 2 ^ d := by omega
      rw [h2, hx]
      cases nodes.find? (fun n => n.index == i) <;>
        cases subtreeHash hasher keccak nodeBytes nodes d (i / 2 ^ d + 1) <;> rfl
    · have h2 : 2 * ((i / 2 ^ d) / 2) + 1 = i / 2 ^ d := by omega
      have h3 : 2 * ((i / 2 ^ d) / 2) = i / 2 ^ d - 1 := by omega
      rw [h2, h3, hx]
      cases subtreeHash hasher keccak nodeBytes nodes d (i / 2 ^ d - 1) <;> rfl

/-- Every combination step emits a Keccak-256 image. -/
theorem combineStep_is_keccak (keccak : List Nat → List Nat)
    (j : Nat) (h : Hash) (s : Option Hash) :
    ∃ inp, combineStep keccak j h s = keccak inp := by
  unfold combineStep
  by_cases hj : j % 2 = 0
  · rw [if_pos hj]
    cases s with
    | none => exact ⟨h, rfl⟩
    | some x => exact ⟨h ++ x, rfl⟩
  · rw [if_neg hj]
    cases s with
    | none => exact ⟨h, rfl⟩
    | some x => exact ⟨x ++ h, rfl⟩

/-- Every cache cell after a climb is either untouched or holds a
Keccak-256 image. -/
theorem climbLoop_hashes_shape (keccak : List Nat → List Nat) :
    ∀ (lv : Nat) (cache : Nat → Nat → Option Hash) (j : Nat) (h : Hash)
      (level pos : Nat),
      (climbLoop keccak lv cache j h).1 level pos = cache level pos ∨
      ∃ inp, (climbLoop keccak lv cache j h).1 level pos = some (keccak inp) := by
  intro lv
  induction lv with
  | zero =>
    intro cache j h level pos
    exact Or.inl rfl
  | succ l ih =>
    intro cache j h level pos
    simp only [climbLoop]
    rcases ih (cacheInsert cache l (j / 2) (combineStep keccak j h (cache (l + 1) (sibStep j))))
        (j / 2) (combineStep keccak j h (cache (l + 1) (sibStep j))) level pos with hc | hc
    · rw [hc]
      unfold cacheInsert
      split
      · right
        obtain ⟨inp, hin⟩ := combineStep_is_keccak keccak j h (cache (l + 1) (sibStep j))
        exact ⟨inp, by rw [hin]⟩
      · left
        rfl
    · right
      exact hc

/-- The last value the climb writes, at level 0, is its final digest. -/
theorem climbLoop_last (keccak : List Nat → List Nat) :
    ∀ (lv : Nat) (cache : Nat → Nat → Option Hash) (j : Nat) (h : Hash),
      1 ≤ lv →
      (climbLoop keccak lv cache j h).1 0 (j / 2 ^ lv)
        = some (climbLoop keccak lv cache j h).2.2.1 := by
  intro lv
  induction lv with
  | zero =>
    intro _ _ _ h1
    cases h1
  | succ l ih =>
    intro cache j h _
    rcases Nat.eq_zero_or_pos l with hl | hl
    · subst hl
      simp only [climbLoop]
      unfold cacheInsert
      rw [if_pos ⟨rfl, by rw [pow_one]⟩]
    · simp only [climbLoop]
      rw [show j / 2 ^ (l + 1) = (j / 2) / 2 ^ l by
        rw [Nat.div_div_eq_div_mul, ← pow_succ']]
      exact ih _ _ _ (by omega)

/-- Unfolding equation for an interior subtree digest. -/
theorem subtreeHash_succ (hasher keccak : List Nat → List Nat)
    (nodeBytes : IMTNode → List Nat) (nodes : List IMTNode) (d pos : Nat) :
    subtreeHash hasher keccak nodeBytes nodes (d + 1) pos =
      match subtreeHash hasher keccak nodeBytes nodes d (2 * pos),
            subtreeHash hasher keccak nodeBytes nodes d (2 * pos + 1) with
      | none, none => none
      | none, some right => some (keccak right)
      | some left, none => some (keccak left)
      | some left, some right => some (keccak (left ++ right)) := by
  rfl

/-- Main climb invariant: starting `lv` levels below the top with the
digest of leaf `i`'s height-`(depth - lv)` ancestor in hand, and the cache
already matching the from-scratch subtree digests everywhere except at the
not-yet-recomputed higher ancestors of `i`, the climb ends with a cache
matching the from-scratch digests at every level and returns the full-tree
digest. -/
theorem climbLoop_spec (hasher keccak : List Nat → List Nat)
    (nodeBytes : IMTNode → List Nat) (N : List IMTNode) (depth i : Nat)
    (hi64 : i < 2 ^ 64) :
    ∀ (lv : Nat) (cache : Nat → Nat → Option Hash) (h : Hash),
      lv ≤ depth →
      subtreeHash hasher keccak nodeBytes N (depth - lv) (i / 2 ^ (depth - lv)) = some h →
      (∀ d pos, d ≤ depth → (d ≤ depth - lv ∨ pos ≠ i / 2 ^ d) →
        cache (depth - d) pos = subtreeHash hasher keccak nodeBytes N d pos) →
      (∀ d pos, d ≤ depth →
        (climbLoop keccak lv cache (i / 2 ^ (depth - lv)) h).1 (depth - d) pos
          = subtreeHash hasher keccak nodeBytes N d pos) ∧
      subtreeHash hasher keccak nodeBytes N depth (i / 2 ^ depth)
        = some (climbLoop keccak lv cache (i / 2 ^ (depth - lv)) h).2.2.1 := by
  intro lv
  induction lv with
  | zero =>
    intro cache h _ hsub hcache
    constructor
    · intro d pos hd
      exact hcache d pos hd (Or.inl (by omega))
    · exact hsub
  | succ l ih =>
    intro cache h hlv hsub hcache
    set d0 := depth - (l + 1) with hd0
    set j := i / 2 ^ d0 with hj
    have hjle : j ≤ i := by
      rw [hj]
      exact Nat.div_le_self _ _
    have hj64 : j < 2 ^ 64 := lt_of_le_of_lt hjle hi64
    have hsibread : cache (l + 1) (sibStep j)
        = subtreeHash hasher keccak nodeBytes N d0 (sibStep j) := by
      have hc := hcache d0 (sibStep j) (by omega) (Or.inl (by omega))
      rw [show depth - d0 = l + 1 from by omega] at hc
      exact hc
    have hdiv : j / 2 = i / 2 ^ (d0 + 1) := by
      rw [hj, Nat.div_div_eq_div_mul, ← pow_succ]
    have hparent : subtreeHash hasher keccak nodeBytes N (d0 + 1) (j / 2)
        = some (combineStep keccak j h (cache (l + 1) (sibStep j))) := by
      rw [hsibread]
      rcases Nat.mod_two_eq_zero_or_one j with hr | hr
      · have hsibv : sibStep j = j + 1 := by rw [sibStep_eq hj64, if_pos hr]
        rw [subtreeHash_succ]
        have h2a : 2 * (j / 2) = j := by omega
        rw [h2a, hsub, hsibv]
        cases subtreeHash hasher keccak nodeBytes N d0 (j + 1) with
        | none =>
          unfold combineStep
          rw [if_pos hr]
        | some s =>
          unfold combineStep
          rw [if_pos hr]
      · have hsibv : sibStep j = j - 1 := by rw [sibStep_eq hj64, if_neg (by omega)]
        rw [subtreeHash_succ]
        have h2a : 2 * (j / 2) + 1 = j := by omega
        have h2b : 2 * (j / 2) = j - 1 := by omega
        rw [h2a, h2b, hsub, hsibv]
        cases subtreeHash hasher keccak nodeBytes N d0 (j - 1) with
        | none =>
          unfold combineStep
          rw [if_neg (by omega)]
        | some s =>
          unfold combineStep
          rw [if_neg (by omega)]
    have hcache2 : ∀ d pos, d ≤ depth → (d ≤ depth - l ∨ pos ≠ i / 2 ^ d) →
        cacheInsert cache l (j / 2)
            (combineStep keccak j h (cache (l + 1) (sibStep j))) (depth - d) pos
          = subtreeHash hasher keccak nodeBytes N d pos := by
      intro d pos hd hcond
      unfold cacheInsert
      split
      · rename_i hhit
        obtain ⟨hlev, hpos⟩ := hhit
        have hdeq : d = d0 + 1 := by omega
        subst hdeq
        rw [hpos]
        exact hparent.symm
      · rename_i hmiss
        apply hcache d pos hd
        rcases hcond with hc | hc
        · by_cases hde : d = d0 + 1
          · right
            intro hpe
            apply hmiss
            subst hde
            refine ⟨by omega, ?_⟩
            rw [hpe, ← hdiv]
          · left
            omega
        · right
          exact hc
    have hmain := ih (cacheInsert cache l (j / 2)
        (combineStep keccak j h (cache (l + 1) (sibStep j))))
      (combineStep keccak j h (cache (l + 1) (sibStep j)))
      (by omega) ?_ ?_
    · rw [show depth - l = d0 + 1 from by omega, ← hdiv] at hmain
      simp only [climbLoop]
      constructor
      · intro d pos hd
        exact hmain.1 d pos hd
      · exact hmain.2
    · rw [show depth - l = d0 + 1 from by omega, ← hdiv]
      exact hparent
    · exact hcache2

/-- The sparse cache matches the from-scratch subtree digests at every
level (absent exactly where the subtree is unoccupied). -/
def CacheOK (hasher keccak : List Nat → List Nat) (nodeBytes : IMTNode → List Nat)
    (imt : Imt) : Prop :=
  ∀ d pos, d ≤ imt.depth →
    imt.hashes (imt.depth - d) pos = subtreeHash hasher keccak nodeBytes imt.nodes d pos

/-- The stored root equals the root recomputed from scratch over the node
registry and the current size. -/
def RootOK (hasher keccak : List Nat → List Nat) (nodeBytes : IMTNode → List Nat)
    (imt : Imt) : Prop :=
  fullRoot hasher keccak nodeBytes imt.nodes imt.depth imt.size = some imt.root

/-- A refresh started from a live leaf whose cache is correct off that
leaf's ancestor path leaves the cache correct everywhere and stores the
from-scratch root. -/
theorem refreshTree_cache_spec {hasher keccak : List Nat → List Nat}
    {nodeBytes : IMTNode → List Nat} {imt : Imt} {kk : Nat}
    {imt2 : Imt} {sibs : List (Option Hash)} {node : IMTNode}
    (hfk : imt.nodes.find? (fun n => n.key == kk) = some node)
    (hfi : imt.nodes.find? (fun n => n.index == node.index) = some node)
    (hi64 : node.index < 2 ^ 64) (hidep : node.index < 2 ^ imt.depth)
    (hcache : ∀ d pos, d ≤ imt.depth → pos ≠ node.index / 2 ^ d →
      imt.hashes (imt.depth - d) pos = subtreeHash hasher keccak nodeBytes imt.nodes d pos)
    (h : refreshTree hasher keccak nodeBytes imt kk = some (imt2, sibs)) :
    (∀ d pos, d ≤ imt.depth →
      imt2.hashes (imt.depth - d) pos = subtreeHash hasher keccak nodeBytes imt.nodes d pos) ∧
    fullRoot hasher keccak nodeBytes imt.nodes imt.depth imt.size = some imt2.root := by
  obtain ⟨node', hfk', hn2, hs2, hd2, hh2, hroot2, hsibs2⟩ := refreshTree_some_elim h
  rw [hfk] at hfk'
  injection hfk' with hne
  subst hne
  have hleaf : subtreeHash hasher keccak nodeBytes imt.nodes 0 node.index
      = some (hasher (nodeBytes node)) := by
    unfold subtreeHash
    rw [hfi]
    rfl
  have hc0 : ∀ d pos, d ≤ imt.depth →
      (d ≤ imt.depth - imt.depth ∨ pos ≠ node.index / 2 ^ d) →
      cacheInsert imt.hashes imt.depth node.index (hasher (nodeBytes node))
          (imt.depth - d) pos
        = subtreeHash hasher keccak nodeBytes imt.nodes d pos := by
    intro d pos hd hcond
    unfold cacheInsert
    split
    · rename_i hhit
      obtain ⟨hlev, hpos⟩ := hhit
      have hd00 : d = 0 := by omega
      subst hd00
      rw [hpos]
      exact hleaf.symm
    · rename_i hmiss
      apply hcache d pos hd
      rcases hcond with hc | hc
      · have hd00 : d = 0 := by omega
        subst hd00
        intro hpe
        refine hmiss ⟨by omega, ?_⟩
        rw [hpe]
        simp
      · exact hc
  have hspec := climbLoop_spec hasher keccak nodeBytes imt.nodes imt.depth node.index hi64
      imt.depth (cacheInsert imt.hashes imt.depth node.index (hasher (nodeBytes node)))
      (hasher (nodeBytes node)) (le_refl _) ?_ hc0
  · have hione : node.index / 2 ^ (imt.depth - imt.depth) = node.index := by simp
    rw [hione] at hspec
    have hizero : node.index / 2 ^ imt.depth = 0 := Nat.div_eq_of_lt hidep
    rw [hizero] at hspec
    constructor
    · intro d pos hd
      rw [hh2]
      exact hspec.1 d pos hd
    · unfold fullRoot
      rw [hspec.2]
      rw [hroot2]
      rfl
  · rw [Nat.sub_self, pow_zero, Nat.div_one]
    exact hleaf

end ClimbLemmas

section CachePreservation

/-- The capacity is below the claimed bound for every depth. -/
theorem maxSize_le (d : Nat) : maxSize d ≤ 2 ^ d - 1 := by
  unfold maxSize
  have h1 : d % 64 ≤ d := Nat.mod_le d 64
  have h2 := Nat.pow_le_pow_right (by norm_num : 1 ≤ 2) h1
  omega

/-- The capacity always fits in a `u64`. -/
theorem maxSize_lt64 (d : Nat) : maxSize d < 2 ^ 64 := by
  unfold maxSize
  have h1 : d % 64 < 64 := Nat.mod_lt _ (by norm_num)
  have h2 : (2 : Nat) ^ (d % 64) ≤ 2 ^ 63 :=
    Nat.pow_le_pow_right (by norm_num) (by omega)
  have h3 : (2 : Nat) ^ 63 < 2 ^ 64 := by norm_num
  omega

/-- Every live index is at most the size. -/
theorem index_le_size {imt : Imt} (hInv : Inv imt) {n : IMTNode} (hn : n ∈ imt.nodes) :
    n.index ≤ imt.size := by
  have h1 : n.index ∈ imt.nodes.map IMTNode.index := List.mem_map_of_mem _ hn
  rw [hInv.idx] at h1
  have := List.mem_range.mp h1
  omega

/-- A successful insertion keeps the cache and root consistent with the
from-scratch recomputation. -/
theorem insertNode_cache {hasher keccak : List Nat → List Nat}
    {nodeBytes : IMTNode → List Nat} {imt : Imt} (hInv : Inv imt)
    (hC : CacheOK hasher keccak nodeBytes imt) {k v : Nat} {imt2 : Imt} {m : IMTMutate}
    (h : insertNode hasher keccak nodeBytes imt k v = some (imt2, m)) :
    CacheOK hasher keccak nodeBytes imt2 ∧ RootOK hasher keccak nodeBytes imt2 := by
  obtain ⟨p, lnsibs, imt3, sibs3, nodesibs, updsibs, hsz, hfind, hln, hsib, hr1, hr2,
    husib, hm⟩ := insertNode_some_elim h
  obtain ⟨n3', _, h3n, h3s, h3d, _, _, _⟩ := refreshTree_some_elim hr1
  have hp : p ∈ imt.nodes := List.mem_of_find?_eq_some hln
  have hidxnodup : (imt.nodes.map IMTNode.index).Nodup := by
    rw [hInv.idx]
    exact List.nodup_range _
  have hple : p.index ≤ imt.size := index_le_size hInv hp
  have hms1 : maxSize imt.depth ≤ 2 ^ imt.depth - 1 := maxSize_le _
  have hms2 : maxSize imt.depth < 2 ^ 64 := maxSize_lt64 _
  have hpow : 1 ≤ 2 ^ imt.depth := Nat.one_le_two_pow
  have hpdep : p.index < 2 ^ imt.depth := by omega
  have hp64 : p.index < 2 ^ 64 := by omega
  have hndep : imt.size + 1 < 2 ^ imt.depth := by omega
  have hn64 : imt.size + 1 < 2 ^ 64 := by omega
  have hfpk : imt.nodes.find? (fun n => n.key == p.key) = some p :=
    find?_field_self hInv.nodup hp
  have hfpi : imt.nodes.find? (fun n => n.index == p.index) = some p :=
    @find?_field_self IMTNode.index imt.nodes hidxnodup p hp
  have hgp_key : (setNextKey imt.nodes p.key k).find? (fun n => n.key == p.key)
      = some { p with next_key := k } := by
    unfold setNextKey
    rw [find?_map_field (fun n => setNextKey_key p.key k n), hfpk]
    simp
  have hgp_idx : (setNextKey imt.nodes p.key k).find? (fun n => n.index == p.index)
      = some { p with next_key := k } := by
    unfold setNextKey
    rw [find?_map_field (fun n => setNextKey_index p.key k n), hfpi]
    simp
  have hfindN1 : ∀ q, (setNextKey imt.nodes p.key k).find? (fun n => n.index == q)
      = (imt.nodes.find? (fun n => n.index == q)).map
          (fun n => if n.key = p.key then { n with next_key := k } else n) := by
    intro q
    unfold setNextKey
    exact find?_map_field (fun n => setNextKey_index p.key k n) imt.nodes q
  have hsubN1 : ∀ d pos, pos ≠ p.index / 2 ^ d →
      subtreeHash hasher keccak nodeBytes (setNextKey imt.nodes p.key k) d pos
        = subtreeHash hasher keccak nodeBytes imt.nodes d pos := by
    intro d pos hpos
    apply subtreeHash_congr
    intro q hq
    rw [hfindN1 q]
    cases hf : imt.nodes.find? (fun n => n.index == q) with
    | none => rfl
    | some n =>
      have hnmem := List.mem_of_find?_eq_some hf
      have hnidx : n.index = q := by simpa using List.find?_some hf
      have hnk : n.key ≠ p.key := by
        intro hke
        have hne : n = p := eq_of_field_eq hInv.nodup hnmem hp hke
        apply hpos
        rw [← hq, ← hnidx, hne]
      simp [hnk]
  have hXcache : ∀ d pos, d ≤ imt.depth → pos ≠ p.index / 2 ^ d →
      imt.hashes (imt.depth - d) pos
        = subtreeHash hasher keccak nodeBytes (setNextKey imt.nodes p.key k) d pos := by
    intro d pos hd hpos
    rw [hC d pos hd]
    exact (hsubN1 d pos hpos).symm
  have hspec1 := @refreshTree_cache_spec hasher keccak nodeBytes
      { root := imt.root, depth := imt.depth, size := imt.size + 1,
        nodes := setNextKey imt.nodes p.key k, hashes := imt.hashes } p.key
      imt3 sibs3 { p with next_key := k } hgp_key hgp_idx hp64 hpdep hXcache hr1
  have h3C : ∀ d pos, d ≤ imt.depth → imt3.hashes (imt.depth - d) pos
      = subtreeHash hasher keccak nodeBytes (setNextKey imt.nodes p.key k) d pos :=
    hspec1.1
  have h3n' : imt3.nodes = setNextKey imt.nodes p.key k := h3n
  have h3s' : imt3.size = imt.size + 1 := h3s
  have h3d' : imt3.depth = imt.depth := h3d
  have hfindN1k : (setNextKey imt.nodes p.key k).find? (fun n => n.key == k) = none := by
    unfold setNextKey
    rw [find?_map_field (fun n => setNextKey_key p.key k n), hfind]
    rfl
  have hfk2 : ((setNextKey imt.nodes p.key k)
        ++ [(⟨imt.size + 1, k, v, p.next_key⟩ : IMTNode)]).find? (fun n => n.key == k)
      = some (⟨imt.size + 1, k, v, p.next_key⟩ : IMTNode) := by
    rw [List.find?_append, hfindN1k]
    simp
  have hfindN1i : (setNextKey imt.nodes p.key k).find?
      (fun n => n.index == imt.size + 1) = none := by
    rw [hfindN1 (imt.size + 1)]
    have hnone : imt.nodes.find? (fun n => n.index == imt.size + 1) = none := by
      rw [List.find?_eq_none]
      intro x hx
      simp only [beq_iff_eq]
      intro hxi
      have := index_le_size hInv hx
      omega
    rw [hnone]
    rfl
  have hfi2 : ((setNextKey imt.nodes p.key k)
        ++ [(⟨imt.size + 1, k, v, p.next_key⟩ : IMTNode)]).find?
          (fun n => n.index == imt.size + 1)
      = some (⟨imt.size + 1, k, v, p.next_key⟩ : IMTNode) := by
    rw [List.find?_append, hfindN1i]
    simp
  have hsubN2 : ∀ d pos, pos ≠ (imt.size + 1) / 2 ^ d →
      subtreeHash hasher keccak nodeBytes
          ((setNextKey imt.nodes p.key k) ++ [(⟨imt.size + 1, k, v, p.next_key⟩ : IMTNode)]) d pos
        = subtreeHash hasher keccak nodeBytes (setNextKey imt.nodes p.key k) d pos := by
    intro d pos hpos
    apply subtreeHash_congr
    intro q hq
    rw [List.find?_append]
    have hqne : q ≠ imt.size + 1 := by
      intro he
      apply hpos
      rw [← hq, he]
    have hone : ([(⟨imt.size + 1, k, v, p.next_key⟩ : IMTNode)].find?
        (fun n => n.index == q)) = none := by
      rw [List.find?_eq_none]
      intro x hx
      simp only [List.mem_singleton] at hx
      subst hx
      simp only [beq_iff_eq]
      intro he
      exact hqne he.symm
    rw [hone]
    exact Option.or_none
  have hYcache : ∀ d pos, d ≤ imt3.depth → pos ≠ (imt.size + 1) / 2 ^ d →
      imt3.hashes (imt3.depth - d) pos
        = subtreeHash hasher keccak nodeBytes
            (imt3.nodes ++ [(⟨imt.size + 1, k, v, p.next_key⟩ : IMTNode)]) d pos := by
    rw [h3d', h3n']
    intro d pos hd hpos
    rw [h3C d pos hd]
    exact (hsubN2 d pos hpos).symm
  have hndep3 : imt.size + 1 < 2 ^ imt3.depth := by
    rw [h3d']
    exact hndep
  have hfk2' : (imt3.nodes ++ [(⟨imt.size + 1, k, v, p.next_key⟩ : IMTNode)]).find?
      (fun n => n.key == k) = some (⟨imt.size + 1, k, v, p.next_key⟩ : IMTNode) := by
    rw [h3n']
    exact hfk2
  have hfi2' : (imt3.nodes ++ [(⟨imt.size + 1, k, v, p.next_key⟩ : IMTNode)]).find?
      (fun n => n.index == imt.size + 1) = some (⟨imt.size + 1, k, v, p.next_key⟩ : IMTNode) := by
    rw [h3n']
    exact hfi2
  have hspec2 := @refreshTree_cache_spec hasher keccak nodeBytes
      { root := imt3.root, depth := imt3.depth, size := imt3.size,
        nodes := imt3.nodes ++ [(⟨imt.size + 1, k, v, p.next_key⟩ : IMTNode)],
        hashes := imt3.hashes } k
      imt2 nodesibs (⟨imt.size + 1, k, v, p.next_key⟩ : IMTNode)
      hfk2' hfi2' hn64 hndep3 hYcache hr2
  obtain ⟨n5', _, h5n, h5s, h5d, _, _, _⟩ := refreshTree_some_elim hr2
  have h5n' : imt2.nodes = imt3.nodes ++ [(⟨imt.size + 1, k, v, p.next_key⟩ : IMTNode)] := h5n
  have h5s' : imt2.size = imt3.size := h5s
  have h5d' : imt2.depth = imt3.depth := h5d
  constructor
  · intro d pos hd
    rw [h5d'] at hd
    have := hspec2.1 d pos hd
    rw [h5d', h5n']
    exact this
  · unfold RootOK
    rw [h5n', h5d', h5s']
    exact hspec2.2

/-- A successful update keeps the cache and root consistent with the
from-scratch recomputation. -/
theorem updateNode_cache {hasher keccak : List Nat → List Nat}
    {nodeBytes : IMTNode → List Nat} {imt : Imt} (hInv : Inv imt)
    (hC : CacheOK hasher keccak nodeBytes imt) {k v : Nat} {imt2 : Imt} {m : IMTMutate}
    (h : updateNode hasher keccak nodeBytes imt k v = some (imt2, m)) :
    CacheOK hasher keccak nodeBytes imt2 ∧ RootOK hasher keccak nodeBytes imt2 := by
  obtain ⟨node0, sibs, hf, hr, hm⟩ := updateNode_some_elim h
  have hn0 : node0 ∈ imt.nodes := List.mem_of_find?_eq_some hf
  have hn0k : node0.key = k := by simpa using List.find?_some hf
  have hidxnodup : (imt.nodes.map IMTNode.index).Nodup := by
    rw [hInv.idx]
    exact List.nodup_range _
  have hple : node0.index ≤ imt.size := index_le_size hInv hn0
  have hms1 : maxSize imt.depth ≤ 2 ^ imt.depth - 1 := maxSize_le _
  have hms2 : maxSize imt.depth < 2 ^ 64 := maxSize_lt64 _
  have hpow : 1 ≤ 2 ^ imt.depth := Nat.one_le_two_pow
  have hsize := hInv.size_le
  have hpdep : node0.index < 2 ^ imt.depth := by omega
  have hp64 : node0.index < 2 ^ 64 := by omega
  have hg_key : (setValue imt.nodes k v).find? (fun n => n.key == k)
      = some { node0 with value := v } := by
    unfold setValue
    rw [find?_map_field (fun n => setValue_key k v n), hf]
    simp [hn0k]
  have hfpi : imt.nodes.find? (fun n => n.index == node0.index) = some node0 :=
    @find?_field_self IMTNode.index imt.nodes hidxnodup node0 hn0
  have hg_idx : (setValue imt.nodes k v).find? (fun n => n.index == node0.index)
      = some { node0 with value := v } := by
    unfold setValue
    rw [find?_map_field (fun n => setValue_index k v n), hfpi]
    simp [hn0k]
  have hfindN : ∀ q, (setValue imt.nodes k v).find? (fun n => n.index == q)
      = (imt.nodes.find? (fun n => n.index == q)).map
          (fun n => if n.key = k then { n with value := v } else n) := by
    intro q
    unfold setValue
    exact find?_map_field (fun n => setValue_index k v n) imt.nodes q
  have hsubN : ∀ d pos, pos ≠ node0.index / 2 ^ d →
      subtreeHash hasher keccak nodeBytes (setValue imt.nodes k v) d pos
        = subtreeHash hasher keccak nodeBytes imt.nodes d pos := by
    intro d pos hpos
    apply subtreeHash_congr
    intro q hq
    rw [hfindN q]
    cases hfq : imt.nodes.find? (fun n => n.index == q) with
    | none => rfl
    | some n =>
      have hnmem := List.mem_of_find?_eq_some hfq
      have hnidx : n.index = q := by simpa using List.find?_some hfq
      have hnk : n.key ≠ k := by
        intro hke
        have hne : n = node0 := eq_of_field_eq hInv.nodup hnmem hn0 (by rw [hke, hn0k])
        apply hpos
        rw [← hq, ← hnidx, hne]
      simp [hnk]
  have hXcache : ∀ d pos, d ≤ imt.depth → pos ≠ node0.index / 2 ^ d →
      imt.hashes (imt.depth - d) pos
        = subtreeHash hasher keccak nodeBytes (setValue imt.nodes k v) d pos := by
    intro d pos hd hpos
    rw [hC d pos hd]
    exact (hsubN d pos hpos).symm
  have hspec := @refreshTree_cache_spec hasher keccak nodeBytes
      { root := imt.root, depth := imt.depth, size := imt.size,
        nodes := setValue imt.nodes k v, hashes := imt.hashes } k
      imt2 sibs { node0 with value := v } hg_key hg_idx hp64 hpdep hXcache hr
  obtain ⟨n2', _, h2n, h2s, h2d, _, _, _⟩ := refreshTree_some_elim hr
  have h2n' : imt2.nodes = setValue imt.nodes k v := h2n
  have h2s' : imt2.size = imt.size := h2s
  have h2d' : imt2.depth = imt.depth := h2d
  constructor
  · intro d pos hd
    rw [h2d'] at hd
    have := hspec.1 d pos hd
    rw [h2d', h2n']
    exact this
  · unfold RootOK
    rw [h2n', h2d', h2s']
    exact hspec.2

/-- Construction leaves the cache and root consistent with the
from-scratch recomputation over the sentinel-only registry. -/
theorem newTree_cache (hasher keccak : List Nat → List Nat)
    (nodeBytes : IMTNode → List Nat) (depth : Nat) :
    CacheOK hasher keccak nodeBytes (newTree hasher keccak nodeBytes depth) ∧
    RootOK hasher keccak nodeBytes (newTree hasher keccak nodeBytes depth) := by
  unfold newTree
  simp only []
  split
  · rename_i imt2 sibs hr
    have hcach : ∀ d pos, d ≤ depth → pos ≠ 0 / 2 ^ d →
        (fun _ _ => (none : Option Hash)) (depth - d) pos
          = subtreeHash hasher keccak nodeBytes
              [({ index := 0, key := 0, value := 0, next_key := 0 } : IMTNode)] d pos := by
      intro d pos hd hpos
      have hzero : (0 : Nat) / 2 ^ d = 0 := Nat.zero_div _
      rw [hzero] at hpos
      have hcongr : subtreeHash hasher keccak nodeBytes
          [({ index := 0, key := 0, value := 0, next_key := 0 } : IMTNode)] d pos
          = subtreeHash hasher keccak nodeBytes [] d pos := by
        apply subtreeHash_congr
        intro q hq
        have hq0 : q ≠ 0 := by
          intro h0
          apply hpos
          rw [← hq, h0, Nat.zero_div]
        rw [List.find?_eq_none.mpr ?_, List.find?_eq_none.mpr ?_]
        · intro x hx
          cases hx
        · intro x hx
          simp only [List.mem_singleton] at hx
          subst hx
          simp only [beq_iff_eq]
          intro he
          exact hq0 he.symm
      rw [hcongr, subtreeHash_nil]
    have hspec := @refreshTree_cache_spec hasher keccak nodeBytes
        { root := List.replicate 32 0, depth := depth, size := 0,
          nodes := [({ index := 0, key := 0, value := 0, next_key := 0 } : IMTNode)],
          hashes := fun _ _ => none } 0
        imt2 sibs ({ index := 0, key := 0, value := 0, next_key := 0 } : IMTNode)
        rfl rfl (by positivity) (by positivity) hcach hr
    obtain ⟨n2', _, h2n, h2s, h2d, _, _, _⟩ := refreshTree_some_elim hr
    have h2n' : imt2.nodes
        = [({ index := 0, key := 0, value := 0, next_key := 0 } : IMTNode)] := h2n
    have h2s' : imt2.size = 0 := h2s
    have h2d' : imt2.depth = depth := h2d
    constructor
    · intro d pos hd
      rw [h2d'] at hd
      have := hspec.1 d pos hd
      rw [h2d', h2n']
      exact this
    · unfold RootOK
      rw [h2n', h2d', h2s']
      exact hspec.2
  · rename_i hr
    have hs : (refreshTree hasher keccak nodeBytes
        { root := List.replicate 32 0, depth := depth, size := 0,
          nodes := [({ index := 0, key := 0, value := 0, next_key := 0 } : IMTNode)],
          hashes := fun _ _ => none } 0).isSome = true := by
      rw [refreshTree_isSome]
      rfl
    rw [hr] at hs
    cases hs

end CachePreservation

section RemainingClaims

/-- Iterated insertion for the refinement statement: runs the insert
sequence, stopping at the first failure. -/
def insertAll (hasher keccak : List Nat → List Nat) (nodeBytes : IMTNode → List Nat) :
    Imt → List (Nat × Nat) → Option Imt
  | imt, [] => some imt
  | imt, (k, v) :: rest =>
    match insertNode hasher keccak nodeBytes imt k v with
    | none => none
    | some (imt2, _) => insertAll hasher keccak nodeBytes imt2 rest

/-- Every state reached by successful insertions from a good state is
good: invariants, cache and root all stay consistent. -/
theorem insertAll_good {hasher keccak : List Nat → List Nat}
    {nodeBytes : IMTNode → List Nat} :
    ∀ (ops : List (Nat × Nat)) (imt imt2 : Imt),
      Inv imt → CacheOK hasher keccak nodeBytes imt →
      RootOK hasher keccak nodeBytes imt →
      insertAll hasher keccak nodeBytes imt ops = some imt2 →
      Inv imt2 ∧ CacheOK hasher keccak nodeBytes imt2 ∧
        RootOK hasher keccak nodeBytes imt2 := by
  intro ops
  induction ops with
  | nil =>
    intro imt imt2 h1 h2 h3 h
    injection h with h
    subst h
    exact ⟨h1, h2, h3⟩
  | cons kv rest ih =>
    intro imt imt2 h1 h2 h3 h
    obtain ⟨k, v⟩ := kv
    unfold insertAll at h
    split at h
    · cases h
    · rename_i imtm mm hm
      exact ih imtm imt2 (insertNode_Inv h1 hm) (insertNode_cache h1 h2 hm).1
        (insertNode_cache h1 h2 hm).2 h

/-- C2: for every sequence of successful insertions from a fresh tree, the
incrementally maintained root equals the root recomputed from scratch over
the final node set with the final size. -/
theorem C2_incremental_matches_full (hasher keccak : List Nat → List Nat)
    (nodeBytes : IMTNode → List Nat) (depth : Nat) (ops : List (Nat × Nat))
    {imt2 : Imt}
    (h : insertAll hasher keccak nodeBytes (newTree hasher keccak nodeBytes depth) ops
      = some imt2) :
    fullRoot hasher keccak nodeBytes imt2.nodes imt2.depth imt2.size
      = some imt2.root := by
  have hg := insertAll_good ops (newTree hasher keccak nodeBytes depth) imt2
    (newTree_Inv hasher keccak nodeBytes depth)
    (newTree_cache hasher keccak nodeBytes depth).1
    (newTree_cache hasher keccak nodeBytes depth).2 h
  exact hg.2.2

/-- Concrete three-insertion tree for the refinement witness. -/
def t3Ex : Imt :=
  (insertAll hasherEx keccakEx nodeBytesEx (newTree hasherEx keccakEx nodeBytesEx 2)
    [(5, 100), (10, 200), (7, 300)]).getD t0Ex

/-- Witness for C2: the spec scenario (keys 5, 10, 7 at depth 2). -/
theorem C2_incremental_matches_full_witness :
    fullRoot hasherEx keccakEx nodeBytesEx t3Ex.nodes t3Ex.depth t3Ex.size
      = some t3Ex.root :=
  C2_incremental_matches_full hasherEx keccakEx nodeBytesEx 2
    [(5, 100), (10, 200), (7, 300)] rfl

/-- A successful refresh stores its final climb digest at level 0 of the
cache, and the root is that digest hashed with the size bytes. -/
theorem refreshTree_top {hasher keccak : List Nat → List Nat}
    {nodeBytes : IMTNode → List Nat} {imt : Imt} {kk : Nat} {imt2 : Imt}
    {sibs : List (Option Hash)}
    (h : refreshTree hasher keccak nodeBytes imt kk = some (imt2, sibs)) :
    ∃ node top, imt.nodes.find? (fun n => n.key == kk) = some node ∧
      imt2.hashes 0 (node.index / 2 ^ imt.depth) = some top ∧
      imt2.root = keccak (top ++ u64be imt.size) := by
  obtain ⟨node, hf, hn, hs, hd, hh, hroot, hsibs⟩ := refreshTree_some_elim h
  rcases Nat.eq_zero_or_pos imt.depth with hdep | hdep
  · refine ⟨node, hasher (nodeBytes node), hf, ?_, ?_⟩
    · rw [hh, hdep]
      simp only [climbLoop]
      unfold cacheInsert
      rw [if_pos ⟨rfl, by simp⟩]
    · rw [hroot, hdep]
      simp only [climbLoop]
  · refine ⟨node, _, hf, ?_, hroot⟩
    rw [hh]
    exact climbLoop_last keccak imt.depth _ _ _ hdep

/-- C3: after every refresh the root equals Keccak-256 of the level-0
digest concatenated with the size as fixed-width big-endian bytes, so —
Keccak being injective on these inputs — two refreshed trees with the same
top digest but different (representable) sizes have different roots. -/
theorem C3_root_binds_size (hasher keccak : List Nat → List Nat)
    (nodeBytes : IMTNode → List Nat)
    {imtA : Imt} {kA : Nat} {imtA2 : Imt} {sA : List (Option Hash)}
    {imtB : Imt} {kB : Nat} {imtB2 : Imt} {sB : List (Option Hash)}
    (hA : refreshTree hasher keccak nodeBytes imtA kA = some (imtA2, sA))
    (hB : refreshTree hasher keccak nodeBytes imtB kB = some (imtB2, sB)) :
    ∃ nA topA nB topB,
      imtA.nodes.find? (fun n => n.key == kA) = some nA ∧
      imtA2.hashes 0 (nA.index / 2 ^ imtA.depth) = some topA ∧
      imtA2.root = keccak (topA ++ u64be imtA.size) ∧
      imtB.nodes.find? (fun n => n.key == kB) = some nB ∧
      imtB2.hashes 0 (nB.index / 2 ^ imtB.depth) = some topB ∧
      imtB2.root = keccak (topB ++ u64be imtB.size) ∧
      (Function.Injective keccak → topA = topB →
        imtA.size < 2 ^ 64 → imtB.size < 2 ^ 64 →
        imtA.size ≠ imtB.size → imtA2.root ≠ imtB2.root) := by
  obtain ⟨nA, topA, hfA, htA, hrA⟩ := refreshTree_top hA
  obtain ⟨nB, topB, hfB, htB, hrB⟩ := refreshTree_top hB
  refine ⟨nA, topA, nB, topB, hfA, htA, hrA, hfB, htB, hrB, ?_⟩
  intro hinj htop hs64A hs64B hne heq
  rw [hrA, hrB, htop] at heq
  have hbe : u64be imtA.size = u64be imtB.size :=
    List.append_cancel_left (hinj heq)
  exact hne (u64be_inj hs64A hs64B hbe)

/-- The refresh leaves every cache cell off the refreshed leaf's ancestor
path untouched. -/
theorem refreshTree_frame {hasher keccak : List Nat → List Nat}
    {nodeBytes : IMTNode → List Nat} {imt : Imt} {kk : Nat} {imt2 : Imt}
    {sibs : List (Option Hash)} {node : IMTNode}
    (hf : imt.nodes.find? (fun n => n.key == kk) = some node)
    (h : refreshTree hasher keccak nodeBytes imt kk = some (imt2, sibs)) :
    ∀ level pos,
      (∀ d, d ≤ imt.depth → ¬(level = imt.depth - d ∧ pos = node.index / 2 ^ d)) →
      imt2.hashes level pos = imt.hashes level pos := by
  obtain ⟨node', hf', hn, hs, hd, hh, hroot, hsibs⟩ := refreshTree_some_elim h
  rw [hf] at hf'
  injection hf' with he
  subst he
  intro level pos hoff
  rw [hh]
  rw [climbLoop_frame keccak imt.depth _ _ _ level pos ?_]
  · unfold cacheInsert
    rw [if_neg ?_]
    intro ⟨h1, h2⟩
    refine hoff 0 (by omega) ⟨by omega, ?_⟩
    rw [h2]
    simp
  · intro mm hmm
    intro ⟨h1, h2⟩
    exact hoff (imt.depth - mm) (by omega) ⟨by omega, h2⟩

/-- C7: an update changes only the touched node's `value` and the cached
digests on its leaf-to-root path; every node's `index`, `key` and
`next_key`, every other node, the size, the depth, and every off-path
cache cell are unchanged. -/
theorem C7_update_frame (hasher keccak : List Nat → List Nat)
    (nodeBytes : IMTNode → List Nat) {imt : Imt} {k v : Nat} {imt2 : Imt}
    {m : IMTMutate}
    (h : updateNode hasher keccak nodeBytes imt k v = some (imt2, m)) :
    imt2.size = imt.size ∧ imt2.depth = imt.depth ∧
    ∃ node0, imt.nodes.find? (fun n => n.key == k) = some node0 ∧
      imt2.nodes.find? (fun n => n.key == k) = some { node0 with value := v } ∧
      imt2.nodes.map (fun n => (n.index, n.key, n.next_key))
        = imt.nodes.map (fun n => (n.index, n.key, n.next_key)) ∧
      (∀ q ∈ imt.nodes, q.key ≠ k → q ∈ imt2.nodes) ∧
      (∀ level pos,
        (∀ d, d ≤ imt.depth → ¬(level = imt.depth - d ∧ pos = node0.index / 2 ^ d)) →
        imt2.hashes level pos = imt.hashes level pos) := by
  obtain ⟨node0, sibs, hf, hr, hm⟩ := updateNode_some_elim h
  obtain ⟨n2', hf2', h2n, h2s, h2d, _, _, _⟩ := refreshTree_some_elim hr
  have h2n' : imt2.nodes = setValue imt.nodes k v := h2n
  have hn0k : node0.key = k := by simpa using List.find?_some hf
  have hXf : (setValue imt.nodes k v).find? (fun n => n.key == k)
      = some { node0 with value := v } := by
    unfold setValue
    rw [find?_map_field (fun n => setValue_key k v n), hf]
    simp [hn0k]
  refine ⟨h2s, h2d, node0, hf, ?_, ?_, ?_, ?_⟩
  · rw [h2n']
    exact hXf
  · rw [h2n']
    unfold setValue
    rw [List.map_map]
    apply List.map_congr_left
    intro n _
    simp only [Function.comp]
    split <;> rfl
  · intro q hq hqk
    rw [h2n']
    unfold setValue
    rw [List.mem_map]
    exact ⟨q, hq, by rw [if_neg hqk]⟩
  · intro level pos hoff
    exact @refreshTree_frame hasher keccak nodeBytes
      { root := imt.root, depth := imt.depth, size := imt.size,
        nodes := setValue imt.nodes k v, hashes := imt.hashes } k imt2 sibs
      { node0 with value := v } hXf hr level pos hoff

/-- Witness for C7 at the concrete update of key 5. -/
theorem C7_update_frame_witness :
    upd1Ex.1.size = t2Ex.size ∧ upd1Ex.1.depth = t2Ex.depth ∧
    ∃ node0, t2Ex.nodes.find? (fun n => n.key == 5) = some node0 ∧
      upd1Ex.1.nodes.find? (fun n => n.key == 5) = some { node0 with value := 999 } ∧
      upd1Ex.1.nodes.map (fun n => (n.index, n.key, n.next_key))
        = t2Ex.nodes.map (fun n => (n.index, n.key, n.next_key)) ∧
      (∀ q ∈ t2Ex.nodes, q.key ≠ 5 → q ∈ upd1Ex.1.nodes) ∧
      (∀ level pos,
        (∀ d, d ≤ t2Ex.depth → ¬(level = t2Ex.depth - d ∧ pos = node0.index / 2 ^ d)) →
        upd1Ex.1.hashes level pos = t2Ex.hashes level pos) :=
  C7_update_frame hasherEx keccakEx nodeBytesEx rfl

/-- Evaluation of a refresh whose key lookup is known. -/
theorem refreshTree_eq_of_find {hasher keccak : List Nat → List Nat}
    {nodeBytes : IMTNode → List Nat} {imt : Imt} {kk : Nat} {node : IMTNode}
    (hf : imt.nodes.find? (fun n => n.key == kk) = some node) :
    refreshTree hasher keccak nodeBytes imt kk
      = some ({ imt with
            root := keccak ((climbLoop keccak imt.depth
                (cacheInsert imt.hashes imt.depth node.index (hasher (nodeBytes node)))
                node.index (hasher (nodeBytes node))).2.2.1 ++ u64be imt.size),
            hashes := (climbLoop keccak imt.depth
                (cacheInsert imt.hashes imt.depth node.index (hasher (nodeBytes node)))
                node.index (hasher (nodeBytes node))).1 },
          (climbLoop keccak imt.depth
              (cacheInsert imt.hashes imt.depth node.index (hasher (nodeBytes node)))
              node.index (hasher (nodeBytes node))).2.2.2) := by
  unfold refreshTree
  rw [hf]

/-- C1 (amended): during a refresh the injected hash function is used
exactly once, for the refreshed node's leaf digest; every digest written
at an interior level and the root are images of the fixed Keccak-256, and
the whole result depends on the injected hasher only through that one
leaf digest. -/
theorem C1_hash_usage (hasher keccak : List Nat → List Nat)
    (nodeBytes : IMTNode → List Nat) {imt : Imt} {kk : Nat} {imt2 : Imt}
    {sibs : List (Option Hash)}
    (h : refreshTree hasher keccak nodeBytes imt kk = some (imt2, sibs)) :
    ∃ node, imt.nodes.find? (fun n => n.key == kk) = some node ∧
      imt2.hashes imt.depth node.index = some (hasher (nodeBytes node)) ∧
      (∀ level pos, imt2.hashes level pos = imt.hashes level pos ∨
        (level = imt.depth ∧ pos = node.index) ∨
        ∃ inp, imt2.hashes level pos = some (keccak inp)) ∧
      (∃ inp, imt2.root = keccak inp) ∧
      (∀ hasher2, hasher2 (nodeBytes node) = hasher (nodeBytes node) →
        refreshTree hasher2 keccak nodeBytes imt kk
          = refreshTree hasher keccak nodeBytes imt kk) := by
  obtain ⟨node, hf, hn, hs, hd, hh, hroot, hsibs⟩ := refreshTree_some_elim h
  refine ⟨node, hf, ?_, ?_, ⟨_, hroot⟩, ?_⟩
  · rw [hh]
    rw [climbLoop_frame keccak imt.depth _ _ _ imt.depth node.index ?_]
    · unfold cacheInsert
      rw [if_pos ⟨rfl, rfl⟩]
    · intro mm hmm
      intro ⟨h1, h2⟩
      omega
  · intro level pos
    rw [hh]
    rcases climbLoop_hashes_shape keccak imt.depth _ _ _ level pos with hc | hc
    · rw [hc]
      unfold cacheInsert
      split
      · rename_i hhit
        exact Or.inr (Or.inl ⟨hhit.1, hhit.2⟩)
      · exact Or.inl rfl
    · exact Or.inr (Or.inr hc)
  · intro hasher2 heq
    rw [refreshTree_eq_of_find hf, refreshTree_eq_of_find hf, heq]

/-- C1 counterexample: with the depth-1 example tree, the single interior
combination digest (cached at level 0) is the fixed hash of the leaf
digest, differs from the injected hasher applied to the same input, and
the root changes when the fixed hash is swapped while the injected hasher
is held fixed — so the climb does call out to a hash function other than
the injected one. -/
theorem C1_counterexample :
    (newTree hasherEx keccakEx nodeBytesEx 1).hashes 0 0
      = some (keccakEx (hasherEx (nodeBytesEx ⟨0, 0, 0, 0⟩))) ∧
    (newTree hasherEx keccakEx nodeBytesEx 1).hashes 0 0
      ≠ some (hasherEx (hasherEx (nodeBytesEx ⟨0, 0, 0, 0⟩))) ∧
    (newTree hasherEx keccakEx nodeBytesEx 1).root
      ≠ (newTree hasherEx keccakEx2 nodeBytesEx 1).root := by
  refine ⟨?_, ?_, ?_⟩ <;> decide

/-- Concrete refresh for the C1 witness. -/
def rfC1Ex : Imt × List (Option Hash) :=
  (refreshTree hasherEx keccakEx nodeBytesEx t0Ex 0).getD (t0Ex, [])

/-- Witness for the amended C1 at a concrete refresh. -/
theorem C1_hash_usage_witness :
    ∃ node, t0Ex.nodes.find? (fun n => n.key == 0) = some node ∧
      rfC1Ex.1.hashes t0Ex.depth node.index = some (hasherEx (nodeBytesEx node)) ∧
      (∀ level pos, rfC1Ex.1.hashes level pos = t0Ex.hashes level pos ∨
        (level = t0Ex.depth ∧ pos = node.index) ∨
        ∃ inp, rfC1Ex.1.hashes level pos = some (keccakEx inp)) ∧
      (∃ inp, rfC1Ex.1.root = keccakEx inp) ∧
      (∀ hasher2, hasher2 (nodeBytesEx node) = hasherEx (nodeBytesEx node) →
        refreshTree hasher2 keccakEx nodeBytesEx t0Ex 0
          = refreshTree hasherEx keccakEx nodeBytesEx t0Ex 0) :=
  C1_hash_usage hasherEx keccakEx nodeBytesEx rfl

/-- Trees sharing the base state but with an artificially different size,
for the C3 witness (the spec calls this testable by construction). -/
def tS1Ex : Imt := { t0Ex with size := 1 }

/-- Concrete refreshes for the C3 witness. -/
def rfAEx : Imt × List (Option Hash) :=
  (refreshTree hasherEx keccakEx nodeBytesEx t0Ex 0).getD (t0Ex, [])

/-- Second concrete refresh, on the size-1 variant. -/
def rfBEx : Imt × List (Option Hash) :=
  (refreshTree hasherEx keccakEx nodeBytesEx tS1Ex 0).getD (t0Ex, [])

/-- Witness for C3 at the two concrete refreshes. -/
theorem C3_root_binds_size_witness :
    ∃ nA topA nB topB,
      t0Ex.nodes.find? (fun n => n.key == 0) = some nA ∧
      rfAEx.1.hashes 0 (nA.index / 2 ^ t0Ex.depth) = some topA ∧
      rfAEx.1.root = keccakEx (topA ++ u64be t0Ex.size) ∧
      tS1Ex.nodes.find? (fun n => n.key == 0) = some nB ∧
      rfBEx.1.hashes 0 (nB.index / 2 ^ tS1Ex.depth) = some topB ∧
      rfBEx.1.root = keccakEx (topB ++ u64be tS1Ex.size) ∧
      (Function.Injective keccakEx → topA = topB →
        t0Ex.size < 2 ^ 64 → tS1Ex.size < 2 ^ 64 →
        t0Ex.size ≠ tS1Ex.size → rfAEx.1.root ≠ rfBEx.1.root) :=
  C3_root_binds_size hasherEx keccakEx nodeBytesEx rfl rfl

end RemainingClaims

end IMT
